import Mathlib

/-!
Verification development for the expression evaluator of the
github-action-expression-playground repository
(src/utils/expressionEvaluator.ts, class ExpressionEvaluator).

The evaluator is a string-scanning interpreter for the GitHub Actions
expression language.  This file gives a shallow embedding of that code:
JavaScript runtime values are modelled by the inductive type `Value`
(JS numbers, which are IEEE doubles, are modelled exactly on the decimal
fragment by `JsNum`, a rational with distinguished NaN and infinities;
object identity is not represented, see `jsEq`), exceptions are modelled
by `Except String`, and the recursion of `parseAndEvaluate` — which in
JavaScript is bounded only by the engine's stack — is modelled by an
explicit fuel parameter whose exhaustion corresponds to the RangeError
a stack overflow raises (caught, like every other exception, by
`evaluateExpression`).
-/

namespace GHAEval

/-- The single-quote character (JS `'`), named to keep quote characters
    out of the source text. -/
def chSQ : Char := Char.ofNat 39

/-- The double-quote character (JS `"`). -/
def chDQ : Char := Char.ofNat 34

/-- The backslash character. -/
def chBS : Char := Char.ofNat 92

/-- A single-quote as a one-character string, for building error messages. -/
def sqs : String := String.mk [chSQ]

/-- Ten to a natural power, over the integers (structural, so concrete
    values reduce). -/
def tenPow : Nat → Int
  | 0 => 1
  | e + 1 => 10 * tenPow e

/-- An exact decimal: the value `mant / 10 ^ exp`.  Every number the
    evaluator can build — numeric literals, `Number(...)` coercions and
    JSON numbers — is such a decimal, which represents it without the
    rounding of IEEE doubles on this fragment. -/
structure Dec where
  mant : Int
  exp : Nat
deriving DecidableEq

/-- Strip trailing factors of 10 (structural on the exponent). -/
def decNorm (m : Int) : Nat → Dec
  | 0 => ⟨m, 0⟩
  | e + 1 => if m % 10 = 0 then decNorm (m / 10) e else ⟨m, e + 1⟩

/-- The canonical decimal of value `m / 10 ^ e`: all evaluator number
    constructions go through this, so the mantissa of a reachable number
    never ends in a zero digit unless the exponent is 0. -/
def mkDec (m : Int) (e : Nat) : Dec := decNorm m e

/-- Is the decimal in canonical form? -/
def decIsNorm (d : Dec) : Bool := d.exp = 0 || ¬ d.mant % 10 = 0

/-- Value equality of decimals (by cross-multiplication, so it does not
    depend on canonical form). -/
def decEqB (a b : Dec) : Bool := a.mant * tenPow b.exp = b.mant * tenPow a.exp

/-- Value order of decimals. -/
def decLtB (a b : Dec) : Bool := a.mant * tenPow b.exp < b.mant * tenPow a.exp

/-- Model of a JavaScript number as used by the evaluator: the decimal
    fragment of IEEE doubles, exactly represented, plus the three
    special values NaN, Infinity and -Infinity. -/
inductive JsNum where
  | nan
  | inf
  | ninf
  | fin (d : Dec)
deriving DecidableEq

/-- Model of a JavaScript runtime value flowing through the evaluator.
    `undef` is JS `undefined` (reachable from the evaluator's context-root
    branch for the names job/steps, which the context object lacks).
    Objects are insertion-ordered association lists. -/
inductive Value where
  | null
  | undef
  | bool (b : Bool)
  | num (n : JsNum)
  | str (s : String)
  | arr (elems : List Value)
  | obj (fields : List (String × Value))

mutual

/-- Structural equality on values (JS compares objects by reference;
    object identity is not representable in a value model, so the
    object/object and array/array cases of loose equality are modelled
    structurally.  No theorem below depends on those two cases). -/
def Value.beq : Value → Value → Bool
  | .null, .null => true
  | .undef, .undef => true
  | .bool a, .bool b => a = b
  | .num a, .num b => a = b
  | .str a, .str b => a = b
  | .arr a, .arr b => Value.beqList a b
  | .obj a, .obj b => Value.beqFields a b
  | _, _ => false

/-- Elementwise `Value.beq` on lists. -/
def Value.beqList : List Value → List Value → Bool
  | [], [] => true
  | a :: as2, b :: bs2 => Value.beq a b && Value.beqList as2 bs2
  | _, _ => false

/-- Fieldwise `Value.beq` on association lists. -/
def Value.beqFields : List (String × Value) → List (String × Value) → Bool
  | [], [] => true
  | (k, a) :: as2, (l, b) :: bs2 => k = l && Value.beq a b && Value.beqFields as2 bs2
  | _, _ => false

end

/-- JS `typeof`, restricted to the values the evaluator handles
    (`typeof null` is the JS quirk "object"). -/
def typeofVal : Value → String
  | .null => "object"
  | .undef => "undefined"
  | .bool _ => "boolean"
  | .num _ => "number"
  | .str _ => "string"
  | .arr _ => "object"
  | .obj _ => "object"

/-! ### Decimal digits -/

/-- Is `c` an ASCII decimal digit? -/
def isDigitCh (c : Char) : Bool := 48 ≤ c.toNat && c.toNat ≤ 57

/-- The digit character for `d < 10`. -/
def digitCh (d : Nat) : Char := Char.ofNat (48 + d % 10)

/-- Decimal digit characters of `n`, most significant first, with `acc`
    as the tail already produced (structural on a fuel that
    `natDigits` supplies in sufficient amount). -/
def natDigitsGo : Nat → Nat → List Char → List Char
  | 0, n, acc => digitCh n :: acc
  | fuel + 1, n, acc =>
    if n < 10 then digitCh n :: acc
    else natDigitsGo fuel (n / 10) (digitCh (n % 10) :: acc)

/-- Decimal digit characters of `n`, most significant first, no leading
    zeros (except for `n = 0` itself). -/
def natDigits (n : Nat) : List Char := natDigitsGo n n []

/-- Numeric value of a digit-character run, most significant first. -/
def digitsVal (ds : List Char) : Nat :=
  ds.foldl (fun acc c => acc * 10 + (c.toNat - 48)) 0

/-! ### Number-to-string (JS `String(n)` on the decimal fragment) -/

/-- Digits of the non-negative decimal `m / 10^k`, with the decimal point
    inserted `k` places from the right (none when `k = 0`), JS-style:
    "0" before a leading point, no trailing point. -/
def decDigitsWithPoint (m k : Nat) : List Char :=
  let ds := natDigits m
  if k = 0 then ds
  else if ds.length ≤ k then
    '0' :: '.' :: (List.replicate (k - ds.length) '0' ++ ds)
  else ds.take (ds.length - k) ++ '.' :: ds.drop (ds.length - k)

/-- JS `String(d)` for a finite number: sign, then the decimal digits of
    the (canonical) mantissa with the point placed by the exponent.
    (JS switches to exponent notation beyond 1e21 and below 1e-6; those
    magnitudes do not arise from the repository's data and are printed in
    plain decimal here.) -/
def finToChars (d : Dec) : List Char :=
  (if d.mant < 0 then ['-'] else []) ++ decDigitsWithPoint d.mant.natAbs d.exp

/-- JS `String(n)` for a number. -/
def numToChars : JsNum → List Char
  | .nan => ['N', 'a', 'N']
  | .inf => ['I', 'n', 'f', 'i', 'n', 'i', 't', 'y']
  | .ninf => '-' :: ['I', 'n', 'f', 'i', 'n', 'i', 't', 'y']
  | .fin q => finToChars q

/-! ### String-to-number (JS `Number(s)`) -/

/-- Is `c` JS whitespace (the ASCII fragment)? -/
def isWsCh (c : Char) : Bool := c = ' ' || c = '\t' || c = '\n' || c = '\r' || c = Char.ofNat 12 || c = Char.ofNat 11

/-- Take the longest leading digit run. -/
def takeDigitRun : List Char → List Char × List Char
  | c :: cs =>
    if isDigitCh c then
      let (ds, r) := takeDigitRun cs
      (c :: ds, r)
    else ([], c :: cs)
  | [] => ([], [])

/-- Hexadecimal digit value, if any. -/
def hexDigitVal (c : Char) : Option Nat :=
  if '0' ≤ c && c ≤ '9' then some (c.toNat - 48)
  else if 'a' ≤ c && c ≤ 'f' then some (c.toNat - 87)
  else if 'A' ≤ c && c ≤ 'F' then some (c.toNat - 55)
  else none

/-- Value of a run of digits in the given base via `digitVal`, requiring
    at least one digit and nothing else in the run. -/
def baseRunVal (digitVal : Char → Option Nat) (base : Nat) : List Char → Option Nat
  | [] => none
  | [c] => digitVal c
  | c :: cs => do
    let d ← digitVal c
    let r ← baseRunVal digitVal base cs
    pure (d * base ^ cs.length + r)

/-- Assemble a decimal from its parsed parts: sign, integer digits,
    fraction digits, decimal exponent. -/
def decOfParts (neg : Bool) (intV fracV : Nat) (fracLen : Nat) (e : Int) : Dec :=
  let m0 : Int := Int.ofNat intV * tenPow fracLen + Int.ofNat fracV
  let m1 : Int := if neg then -m0 else m0
  if 0 ≤ e then mkDec (m1 * tenPow e.toNat) fracLen
  else mkDec m1 (fracLen + (-e).toNat)

/-- The unsigned decimal part of JS `Number(s)`:
    digits, digits.digits, .digits or digits., with optional exponent. -/
def decPartVal : List Char → Option Dec := fun cs =>
  let (intDs, r1) := takeDigitRun cs
  let (fracDs, r2) := match r1 with
    | '.' :: t => takeDigitRun t
    | _ => ([], r1)
  if intDs.isEmpty ∧ fracDs.isEmpty then none
  else
    let hasPoint := match r1 with | '.' :: _ => true | _ => false
    if hasPoint ∧ fracDs.isEmpty ∧ r2 ≠ [] then none
    else
      match r2 with
      | [] => some (decOfParts false (digitsVal intDs) (digitsVal fracDs) fracDs.length 0)
      | 'e' :: t | 'E' :: t =>
        let (eneg, t1) : Bool × List Char := match t with
          | '+' :: t2 => (false, t2)
          | '-' :: t2 => (true, t2)
          | _ => (false, t)
        let (eds, t2) := takeDigitRun t1
        if eds.isEmpty ∨ t2 ≠ [] then none
        else
          let e : Int := if eneg then -(Int.ofNat (digitsVal eds)) else Int.ofNat (digitsVal eds)
          some (decOfParts false (digitsVal intDs) (digitsVal fracDs) fracDs.length e)
      | _ => none

/-- JS `Number(s)` on a character list: trimmed; empty is 0; hex, octal
    and binary literals; optional sign with `Infinity` or decimal
    notation; anything else is NaN. -/
def strToNum (l : List Char) : JsNum :=
  let t := (l.dropWhile isWsCh).reverse.dropWhile isWsCh |>.reverse
  match t with
  | [] => .fin (mkDec 0 0)
  | '0' :: 'x' :: r => match baseRunVal hexDigitVal 16 r with
    | some n => .fin (mkDec (Int.ofNat n) 0)
    | none => .nan
  | '0' :: 'X' :: r => match baseRunVal hexDigitVal 16 r with
    | some n => .fin (mkDec (Int.ofNat n) 0)
    | none => .nan
  | '0' :: 'o' :: r =>
    match baseRunVal (fun c => if '0' ≤ c && c ≤ '7' then some (c.toNat - 48) else none) 8 r with
    | some n => .fin (mkDec (Int.ofNat n) 0)
    | none => .nan
  | '0' :: 'b' :: r =>
    match baseRunVal (fun c => if c = '0' ∨ c = '1' then some (c.toNat - 48) else none) 2 r with
    | some n => .fin (mkDec (Int.ofNat n) 0)
    | none => .nan
  | _ =>
    let (neg, body) : Bool × List Char := match t with
      | '+' :: r => (false, r)
      | '-' :: r => (true, r)
      | _ => (false, t)
    if body = ['I', 'n', 'f', 'i', 'n', 'i', 't', 'y'] then
      if neg then .ninf else .inf
    else match decPartVal body with
      | some d => .fin (if neg then ⟨-d.mant, d.exp⟩ else d)
      | none => .nan

/-! ### Numeric comparison and equality (NaN-aware) -/

/-- JS `<` on numbers: false whenever NaN is involved. -/
def jsNumLt : JsNum → JsNum → Bool
  | .nan, _ => false
  | _, .nan => false
  | .ninf, .ninf => false
  | .ninf, _ => true
  | _, .ninf => false
  | .inf, _ => false
  | .fin _, .inf => true
  | .fin a, .fin b => decLtB a b

/-- JS `<=` on numbers: false whenever NaN is involved (not the negation
    of `jsNumLt`). -/
def jsNumLe : JsNum → JsNum → Bool
  | .nan, _ => false
  | _, .nan => false
  | .ninf, _ => true
  | _, .ninf => false
  | _, .inf => true
  | .inf, .fin _ => false
  | .fin a, .fin b => decLtB a b || decEqB a b

/-- JS `==` on numbers: NaN equals nothing, including itself. -/
def jsNumEq : JsNum → JsNum → Bool
  | .nan, _ => false
  | _, .nan => false
  | .inf, .inf => true
  | .ninf, .ninf => true
  | .fin a, .fin b => decEqB a b
  | _, _ => false

/-- JS `Number(true)` / `Number(false)`. -/
def boolToNum (b : Bool) : JsNum := .fin (mkDec (if b then 1 else 0) 0)

/-! ### String coercion (JS `String(v)`) -/

mutual

/-- JS `String(v)` (array elements use the `Array.prototype.toString`
    join, where null and undefined elements print as empty). -/
def jsToChars : Value → List Char
  | .null => "null".data
  | .undef => "undefined".data
  | .bool true => "true".data
  | .bool false => "false".data
  | .num n => numToChars n
  | .str s => s.data
  | .arr elems => jsArrChars elems
  | .obj _ => "[object Object]".data

/-- The comma-joined element prints of `Array.prototype.toString`. -/
def jsArrChars : List Value → List Char
  | [] => []
  | [v] => jsElemChars v
  | v :: rest => jsElemChars v ++ ',' :: jsArrChars rest

/-- One array element's print: null/undefined are empty, the rest is
    `String(v)`. -/
def jsElemChars : Value → List Char
  | .null => []
  | .undef => []
  | .bool true => "true".data
  | .bool false => "false".data
  | .num n => numToChars n
  | .str s => s.data
  | .arr elems => jsArrChars elems
  | .obj _ => "[object Object]".data

end

/-- JS `String(v)` as a `String`. -/
def jsToString (v : Value) : String := String.mk (jsToChars v)

/-- JS `Number(v)`: null is 0, undefined is NaN, booleans are 0/1,
    strings parse, arrays coerce through their string print, plain
    objects are NaN. -/
def jsToNumber : Value → JsNum
  | .null => .fin (mkDec 0 0)
  | .undef => .nan
  | .bool b => boolToNum b
  | .num n => n
  | .str s => strToNum s.data
  | .arr elems => strToNum (jsArrChars elems)
  | .obj _ => .nan

/-! ### Loose equality (JS `==`) -/

/-- JS loose equality `==` on the evaluator's values.  null and undefined
    equal each other and nothing else; a boolean coerces to a number
    first; number-vs-string coerces the string to a number; arrays and
    objects against scalars coerce through their string print.  The
    object/object and array/array cases are reference equality in JS and
    are modelled structurally here (no theorem depends on them). -/
def jsEq : Value → Value → Bool
  | .null, .null => true
  | .null, .undef => true
  | .undef, .null => true
  | .undef, .undef => true
  | .null, _ => false
  | _, .null => false
  | .undef, _ => false
  | _, .undef => false
  | .bool a, .bool b => a = b
  | .num a, .num b => jsNumEq a b
  | .str a, .str b => a = b
  | .num a, .str b => jsNumEq a (strToNum b.data)
  | .str a, .num b => jsNumEq (strToNum a.data) b
  | .bool a, .num b => jsNumEq (boolToNum a) b
  | .num a, .bool b => jsNumEq a (boolToNum b)
  | .bool a, .str b => jsNumEq (boolToNum a) (strToNum b.data)
  | .str a, .bool b => jsNumEq (strToNum a.data) (boolToNum b)
  | .arr a, .arr b => Value.beqList a b
  | .obj a, .obj b => Value.beqFields a b
  | .arr a, .obj b => jsArrChars a = "[object Object]".data
  | .obj a, .arr b => "[object Object]".data = jsArrChars b
  | .bool a, .arr b => jsNumEq (boolToNum a) (strToNum (jsArrChars b))
  | .arr a, .bool b => jsNumEq (strToNum (jsArrChars a)) (boolToNum b)
  | .num a, .arr b => jsNumEq a (strToNum (jsArrChars b))
  | .arr a, .num b => jsNumEq (strToNum (jsArrChars a)) b
  | .str a, .arr b => a.data = jsArrChars b
  | .arr a, .str b => jsArrChars a = b.data
  | .bool a, .obj _ => jsNumEq (boolToNum a) (strToNum "[object Object]".data)
  | .obj _, .bool b => jsNumEq (strToNum "[object Object]".data) (boolToNum b)
  | .num a, .obj _ => jsNumEq a (strToNum "[object Object]".data)
  | .obj _, .num b => jsNumEq (strToNum "[object Object]".data) b
  | .str a, .obj _ => a = "[object Object]"
  | .obj _, .str b => "[object Object]" = b

/-! ### Truthiness, as the source defines it -/

/-- Direct translation of the evaluator's `isTruthy`: booleans are
    themselves, a string is truthy iff nonempty, a number is truthy iff
    it differs from 0 (so NaN, which JS itself treats as falsy, is truthy
    under this code), and otherwise the JS loose `value != null` test:
    null and undefined are falsy, arrays and objects truthy. -/
def isTruthy : Value → Bool
  | .bool b => b
  | .str s => s ≠ ""
  | .num (.fin d) => ! decEqB d ⟨0, 0⟩
  | .num _ => true
  | .null => false
  | .undef => false
  | .arr _ => true
  | .obj _ => true

/-! ### JSON serialization (model of `JSON.stringify`, as called by
`evaluateToJSONFunction`) -/

/-- The left-brace character. -/
def chLB : Char := Char.ofNat 123

/-- The right-brace character. -/
def chRB : Char := Char.ofNat 125

/-- Lowercase hexadecimal digit character for `d < 16`. -/
def hexCh (d : Nat) : Char :=
  if d < 10 then Char.ofNat (48 + d) else Char.ofNat (97 + (d - 10))

/-- One character, JSON-escaped as `JSON.stringify` escapes it. -/
def jsonEscapeCh (c : Char) : List Char :=
  if c = chDQ then [chBS, chDQ]
  else if c = chBS then [chBS, chBS]
  else if c = '\n' then [chBS, 'n']
  else if c = '\r' then [chBS, 'r']
  else if c = '\t' then [chBS, 't']
  else if c = Char.ofNat 8 then [chBS, 'b']
  else if c = Char.ofNat 12 then [chBS, 'f']
  else if c.toNat < 32 then [chBS, 'u', '0', '0', hexCh (c.toNat / 16), hexCh (c.toNat % 16)]
  else [c]

/-- JSON-escape a character run. -/
def jsonEscapeList : List Char → List Char
  | [] => []
  | c :: cs => jsonEscapeCh c ++ jsonEscapeList cs

/-- A string rendered as a quoted, escaped JSON string literal. -/
def jsonStrRender (s : String) : List Char :=
  chDQ :: (jsonEscapeList s.data ++ [chDQ])

/-- Comma-join rendered pieces. -/
def commaJoin : List (List Char) → List Char
  | [] => []
  | [x] => x
  | x :: rest => x ++ ',' :: commaJoin rest

mutual

/-- Model of `JSON.stringify(v)`: `none` is JS returning undefined (for
    an undefined top-level value); NaN and the infinities print as null,
    undefined array elements print as null, and object fields whose
    value does not stringify are skipped, as in JS. -/
def jsonStringifyChars : Value → Option (List Char)
  | .undef => none
  | .null => some ['n', 'u', 'l', 'l']
  | .bool true => some ['t', 'r', 'u', 'e']
  | .bool false => some ['f', 'a', 'l', 's', 'e']
  | .num (.fin q) => some (finToChars q)
  | .num _ => some ['n', 'u', 'l', 'l']
  | .str s => some (jsonStrRender s)
  | .arr elems => some ('[' :: (commaJoin (jsonStringifyElems elems) ++ [']']))
  | .obj fields => some (chLB :: (commaJoin (jsonStringifyFields fields) ++ [chRB]))

/-- Rendered array elements (undefined renders as null). -/
def jsonStringifyElems : List Value → List (List Char)
  | [] => []
  | v :: rest =>
    ((jsonStringifyChars v).getD ['n', 'u', 'l', 'l']) :: jsonStringifyElems rest

/-- Rendered object members; a field whose value does not stringify
    (undefined) is skipped. -/
def jsonStringifyFields : List (String × Value) → List (List Char)
  | [] => []
  | (k, v) :: rest =>
    match jsonStringifyChars v with
    | none => jsonStringifyFields rest
    | some sv => (jsonStrRender k ++ ':' :: sv) :: jsonStringifyFields rest

end

/-- Model of `JSON.stringify(v)` as an optional `String`. -/
def jsonStringify (v : Value) : Option String :=
  (jsonStringifyChars v).map String.mk

/-! ### JSON parsing (model of `JSON.parse`, as called by
`evaluateFromJSONFunction`) -/

/-- Skip JSON whitespace (space, tab, line feed, carriage return). -/
def jsonSkipWs : List Char → List Char
  | c :: cs =>
    if c = ' ' ∨ c = '\t' ∨ c = '\n' ∨ c = '\r' then jsonSkipWs cs else c :: cs
  | [] => []

/-- The character for a two-character JSON escape, if valid. -/
def jsonUnescapeCh (e : Char) : Option Char :=
  if e = chDQ then some chDQ
  else if e = chBS then some chBS
  else if e = '/' then some '/'
  else if e = 'b' then some (Char.ofNat 8)
  else if e = 'f' then some (Char.ofNat 12)
  else if e = 'n' then some '\n'
  else if e = 'r' then some '\r'
  else if e = 't' then some '\t'
  else none

/-- Value of four hexadecimal digit characters, if all are digits. -/
def hexQuad (a b c d : Char) : Option Nat := do
  let va ← hexDigitVal a
  let vb ← hexDigitVal b
  let vc ← hexDigitVal c
  let vd ← hexDigitVal d
  pure (((va * 16 + vb) * 16 + vc) * 16 + vd)

/-- Parse the body of a JSON string after the opening quote, unescaping;
    surrogate pairs in `u`-escapes combine into one scalar (JS keeps lone
    surrogates in its UTF-16 strings; scalar-valued characters cannot
    represent them, so a lone surrogate degrades to `Char.ofNat`'s
    fallback — unreachable from this repository's data).  Every step
    consumes at least one character, so the callers' fuel of one more
    than the remaining length never runs out before the closing quote. -/
def jsonParseStrAux (fuel : Nat) (acc : List Char) (l : List Char) :
    Option (String × List Char) :=
  match fuel with
  | 0 => none
  | fuel + 1 =>
    match l with
    | [] => none
    | c :: cs =>
      if c = chDQ then some (String.mk acc.reverse, cs)
      else if c = chBS then
        match cs with
        | e :: cs2 =>
          if e = 'u' then
            match cs2 with
            | a :: b :: c2 :: d :: cs3 =>
              match hexQuad a b c2 d with
              | none => none
              | some n =>
                if 55296 ≤ n ∧ n < 56320 then
                  match cs3 with
                  | b2 :: u2 :: a2 :: b3 :: c3 :: d2 :: cs5 =>
                    if b2 = chBS ∧ u2 = 'u' then
                      match hexQuad a2 b3 c3 d2 with
                      | some n2 =>
                        if 56320 ≤ n2 ∧ n2 < 57344 then
                          jsonParseStrAux fuel
                            (Char.ofNat (65536 + (n - 55296) * 1024 + (n2 - 56320)) :: acc) cs5
                        else jsonParseStrAux fuel (Char.ofNat n :: acc) (b2 :: u2 :: a2 :: b3 :: c3 :: d2 :: cs5)
                      | none => jsonParseStrAux fuel (Char.ofNat n :: acc) (b2 :: u2 :: a2 :: b3 :: c3 :: d2 :: cs5)
                    else jsonParseStrAux fuel (Char.ofNat n :: acc) (b2 :: u2 :: a2 :: b3 :: c3 :: d2 :: cs5)
                  | short => jsonParseStrAux fuel (Char.ofNat n :: acc) short
                else jsonParseStrAux fuel (Char.ofNat n :: acc) cs3
            | _ => none
          else
            match jsonUnescapeCh e with
            | some ch => jsonParseStrAux fuel (ch :: acc) cs2
            | none => none
        | [] => none
      else if c.toNat < 32 then none
      else jsonParseStrAux fuel (c :: acc) cs

/-- Parse the exponent tail of a JSON number (after `e`/`E`). -/
def jsonParseExp (neg : Bool) (intDs fracDs : List Char) (cs3 : List Char) :
    Option (Dec × List Char) :=
  let (eneg, t1) : Bool × List Char := match cs3 with
    | e1 :: t2 =>
      if e1 = '+' then (false, t2)
      else if e1 = '-' then (true, t2)
      else (false, e1 :: t2)
    | [] => (false, [])
  let (eds, t2) := takeDigitRun t1
  if eds.isEmpty then none
  else
    let e : Int := if eneg then -(Int.ofNat (digitsVal eds))
      else Int.ofNat (digitsVal eds)
    some (decOfParts neg (digitsVal intDs) (digitsVal fracDs) fracDs.length e, t2)

/-- Parse a JSON number per the JSON grammar (no leading zeros, a
    fraction and exponent need digits), exactly, into a decimal. -/
def jsonParseNum (cs : List Char) : Option (Dec × List Char) :=
  let (neg, cs1) : Bool × List Char := match cs with
    | c0 :: r0 => if c0 = '-' then (true, r0) else (false, c0 :: r0)
    | [] => (false, [])
  match cs1 with
  | [] => none
  | c :: r =>
    let nextIsDigit : Bool := match r with
      | d :: _ => isDigitCh d
      | [] => false
    if ¬ isDigitCh c then none
    else if c = '0' ∧ nextIsDigit then none
    else
      let (intDs, cs2) := takeDigitRun cs1
      let (fracDs, cs3, hadPoint) : List Char × List Char × Bool := match cs2 with
        | c2 :: t =>
          if c2 = '.' then
            let (ds, r2) := takeDigitRun t
            (ds, r2, true)
          else ([], c2 :: t, false)
        | [] => ([], [], false)
      if hadPoint ∧ fracDs.isEmpty then none
      else
        match cs3 with
        | c3 :: t =>
          if c3 = 'e' ∨ c3 = 'E' then jsonParseExp neg intDs fracDs t
          else
            some (decOfParts neg (digitsVal intDs) (digitsVal fracDs) fracDs.length 0, c3 :: t)
        | [] =>
          some (decOfParts neg (digitsVal intDs) (digitsVal fracDs) fracDs.length 0, [])

/-- Insert a parsed object member as JS does: the last duplicate key
    wins, keeping the first key's position. -/
def objInsert (fields : List (String × Value)) (k : String) (v : Value) :
    List (String × Value) :=
  if fields.any (fun kv => kv.1 = k) then
    fields.map (fun kv => if kv.1 = k then (k, v) else kv)
  else fields ++ [(k, v)]

/-- Fold raw parsed members into a JS object field list. -/
def objFold (raw : List (String × Value)) : List (String × Value) :=
  raw.foldl (fun acc kv => objInsert acc kv.1 kv.2) []

mutual

/-- Parse one JSON value (fuel-bounded; `jsonParse` supplies fuel that a
    counting argument proves sufficient for every rendered value). -/
def jsonParseVal (fuel : Nat) (cs : List Char) : Option (Value × List Char) :=
  match fuel with
  | 0 => none
  | fuel + 1 =>
    match jsonSkipWs cs with
    | c :: r =>
      if c = 'n' then
        match r with
        | u :: l1 :: l2 :: r2 =>
          if u = 'u' ∧ l1 = 'l' ∧ l2 = 'l' then some (.null, r2) else none
        | _ => none
      else if c = 't' then
        match r with
        | r1 :: u :: e1 :: r2 =>
          if r1 = 'r' ∧ u = 'u' ∧ e1 = 'e' then some (.bool true, r2) else none
        | _ => none
      else if c = 'f' then
        match r with
        | a :: l1 :: s1 :: e1 :: r2 =>
          if a = 'a' ∧ l1 = 'l' ∧ s1 = 's' ∧ e1 = 'e' then some (.bool false, r2)
          else none
        | _ => none
      else if c = chDQ then
        match jsonParseStrAux (r.length + 1) [] r with
        | some (s, r2) => some (.str s, r2)
        | none => none
      else if c = '[' then
        match jsonSkipWs r with
        | c2 :: r2 =>
          if c2 = ']' then some (.arr [], r2)
          else
            match jsonParseElems fuel (c2 :: r2) with
            | some (es, r3) => some (.arr es, r3)
            | none => none
        | [] =>
          match jsonParseElems fuel [] with
          | some (es, r3) => some (.arr es, r3)
          | none => none
      else if c = chLB then
        match jsonSkipWs r with
        | c2 :: r2 =>
          if c2 = chRB then some (.obj [], r2)
          else
            match jsonParseMems fuel (c2 :: r2) with
            | some (ms, r3) => some (.obj (objFold ms), r3)
            | none => none
        | [] => none
      else if c = '-' ∨ isDigitCh c then
        match jsonParseNum (c :: r) with
        | some (q, r2) => some (.num (.fin q), r2)
        | none => none
      else none
    | [] => none

/-- Parse one or more comma-separated array elements up to `]`. -/
def jsonParseElems (fuel : Nat) (cs : List Char) : Option (List Value × List Char) :=
  match fuel with
  | 0 => none
  | fuel + 1 =>
    match jsonParseVal fuel cs with
    | none => none
    | some (v, r) =>
      match jsonSkipWs r with
      | c :: r2 =>
        if c = ',' then
          match jsonParseElems fuel r2 with
          | some (vs, r3) => some (v :: vs, r3)
          | none => none
        else if c = ']' then some ([v], r2)
        else none
      | [] => none

/-- Parse one or more comma-separated object members up to the closing
    brace (raw, in source order; `objFold` applies JS duplicate-key
    handling). -/
def jsonParseMems (fuel : Nat) (cs : List Char) :
    Option (List (String × Value) × List Char) :=
  match fuel with
  | 0 => none
  | fuel + 1 =>
    match jsonSkipWs cs with
    | c :: r =>
      if c = chDQ then
        match jsonParseStrAux (r.length + 1) [] r with
        | none => none
        | some (k, r1) =>
          match jsonSkipWs r1 with
          | c2 :: r2 =>
            if c2 = ':' then
              match jsonParseVal fuel r2 with
              | none => none
              | some (v, r3) =>
                match jsonSkipWs r3 with
                | c4 :: r4 =>
                  if c4 = ',' then
                    match jsonParseMems fuel r4 with
                    | some (ms, r5) => some ((k, v) :: ms, r5)
                    | none => none
                  else if c4 = chRB then some ([(k, v)], r4)
                  else none
                | [] => none
            else none
          | [] => none
      else none
    | [] => none

end

/-- Model of `JSON.parse(s)`: `none` is a thrown SyntaxError.  The fuel
    `s.length + 1` is enough for any input whose values each consume at
    least one character, which the round-trip proof below confirms for
    every rendered value. -/
def jsonParse (s : String) : Option Value :=
  match jsonParseVal (s.data.length + 1) s.data with
  | some (v, rest) => if jsonSkipWs rest = [] then some v else none
  | none => none

/-! ### Character-list utilities shared by the evaluator -/

/-- JS `String.prototype.trim` (ASCII whitespace fragment). -/
def trimL (l : List Char) : List Char :=
  ((l.dropWhile isWsCh).reverse.dropWhile isWsCh).reverse

/-- JS `includes` on character lists (substring containment). -/
def includesSub (pat : List Char) : List Char → Bool
  | [] => pat.isEmpty
  | c :: cs => pat.isPrefixOf (c :: cs) || includesSub pat cs

/-- JS `indexOf` on character lists: first index of the pattern. -/
def idxOfSub (pat : List Char) : List Char → Option Nat
  | [] => if pat.isEmpty then some 0 else none
  | c :: cs =>
    if pat.isPrefixOf (c :: cs) then some 0
    else (idxOfSub pat cs).map (· + 1)

/-- JS `split('.')`: dot-separated pieces, keeping empties. -/
def splitOnDot : List Char → List (List Char)
  | [] => [[]]
  | c :: cs =>
    if c = '.' then [] :: splitOnDot cs
    else
      match splitOnDot cs with
      | h :: t => (c :: h) :: t
      | [] => [[c]]

/-! ### The evaluator's data model (src/types/index.ts) -/

/-- The `EvaluationContext` interface: the nine context roots, each a
    JS value (objects in every real context). -/
structure EvaluationContext where
  env : Value
  vars : Value
  secrets : Value
  inputs : Value
  github : Value
  matrix : Value
  needs : Value
  runner : Value
  strategy : Value

/-- The context, as the JS object (`this.context`) that
    `evaluatePropertyAccess` walks: exactly the nine declared keys, in
    interface order. -/
def ctxToValue (c : EvaluationContext) : Value :=
  .obj [("env", c.env), ("vars", c.vars), ("secrets", c.secrets),
        ("inputs", c.inputs), ("github", c.github), ("matrix", c.matrix),
        ("needs", c.needs), ("runner", c.runner), ("strategy", c.strategy)]

/-- The `ExpressionResult` interface (without the `success` flag that
    `evaluateExpression` adds on return). -/
structure ExpressionResult where
  value : Value
  type : String
  contextHits : List String
  error : Option String

/-- The record `evaluateExpression` returns: an `ExpressionResult`
    spread together with `success`. -/
structure FinalResult where
  value : Value
  type : String
  contextHits : List String
  error : Option String
  success : Bool

/-- The type of the recursive-evaluation callback
    (`this.parseAndEvaluate` one stack frame down). -/
abbrev EvalFn := List Char → Except String ExpressionResult

/-! ### The source's text scanners -/

/-- The loop of `containsOperatorOutsideParens`: walk index pairs
    tracking string state and a parenthesis counter; true as soon as the
    doubled operator character appears at depth 0 outside strings. -/
def copScan (opc : Char) (inStr : Bool) (sc : Char) (pc : Int) (prev : Option Char) :
    List Char → Bool
  | [] => false
  | [_] => false
  | c :: next :: rest =>
    if inStr = false then
      if c = chDQ ∨ c = chSQ then copScan opc true c pc (some c) (next :: rest)
      else if c = '(' then copScan opc false sc (pc + 1) (some c) (next :: rest)
      else if c = ')' then copScan opc false sc (pc - 1) (some c) (next :: rest)
      else if pc = 0 ∧ c = opc ∧ next = opc then true
      else copScan opc false sc pc (some c) (next :: rest)
    else
      if c = sc ∧ (prev = none ∨ ¬ prev = some chBS) then
        copScan opc false sc pc (some c) (next :: rest)
      else copScan opc true sc pc (some c) (next :: rest)

/-- `containsOperatorOutsideParens(expression, op)` for `op` the doubled
    character `opc` (`&&` or `||`). -/
def containsOperatorOutsideParens (e : List Char) (opc : Char) : Bool :=
  copScan opc false ' ' 0 none e

/-- The loop of `findLastOperatorIndex`: like `copScan`, but record every
    depth-0 match and return the last one. -/
def floScan (opc : Char) (inStr : Bool) (sc : Char) (pc : Int) (prev : Option Char)
    (i : Nat) (best : Option Nat) : List Char → Option Nat
  | [] => best
  | [_] => best
  | c :: next :: rest =>
    if inStr = false then
      if c = chDQ ∨ c = chSQ then floScan opc true c pc (some c) (i + 1) best (next :: rest)
      else if c = '(' then floScan opc false sc (pc + 1) (some c) (i + 1) best (next :: rest)
      else if c = ')' then floScan opc false sc (pc - 1) (some c) (i + 1) best (next :: rest)
      else if pc = 0 ∧ c = opc ∧ next = opc then
        floScan opc false sc pc (some c) (i + 1) (some i) (next :: rest)
      else floScan opc false sc pc (some c) (i + 1) best (next :: rest)
    else
      if c = sc ∧ (prev = none ∨ ¬ prev = some chBS) then
        floScan opc false sc pc (some c) (i + 1) best (next :: rest)
      else floScan opc true sc pc (some c) (i + 1) best (next :: rest)

/-- `findLastOperatorIndex(expression, op)`: index of the last depth-0
    occurrence of the doubled operator (JS returns -1, modelled `none`). -/
def findLastOperatorIndex (e : List Char) (opc : Char) : Option Nat :=
  floScan opc false ' ' 0 none 0 none e

/-- The loop of `hasOperators`, including its trailing-character check:
    after scanning all pairs, a final `>` or `<` at depth 0 outside a
    string also counts. -/
def hasOpScan (inStr : Bool) (sc : Char) (pc : Int) (prev : Option Char) :
    List Char → Bool
  | [] => false
  | [c] => !inStr && pc == 0 && (c == '>' || c == '<')
  | c :: next :: rest =>
    if inStr = false then
      if c = chDQ ∨ c = chSQ then hasOpScan true c pc (some c) (next :: rest)
      else if c = '(' then hasOpScan false sc (pc + 1) (some c) (next :: rest)
      else if c = ')' then hasOpScan false sc (pc - 1) (some c) (next :: rest)
      else if pc = 0 then
        if (c = '=' ∧ next = '=') ∨ (c = '!' ∧ next = '=') ∨ (c = '>' ∧ next = '=')
            ∨ (c = '<' ∧ next = '=') ∨ c = '>' ∨ c = '<'
            ∨ (c = '&' ∧ next = '&') ∨ (c = '|' ∧ next = '|')
            ∨ (c = '!' ∧ prev.isSome ∧ ¬ prev = some '=') then true
        else hasOpScan false sc pc (some c) (next :: rest)
      else hasOpScan false sc pc (some c) (next :: rest)
    else
      if c = sc ∧ (prev = none ∨ ¬ prev = some chBS) then
        hasOpScan false sc pc (some c) (next :: rest)
      else hasOpScan true sc pc (some c) (next :: rest)

/-- `hasOperators(expression)`. -/
def hasOperators (e : List Char) : Bool := hasOpScan false ' ' 0 none e

/-- First character of a function-call tail (`.+` needs one non-newline
    character before the closing parenthesis can count). -/
def fnTailOk1 : List Char → Bool
  | [] => false
  | c :: cs => if c = ')' then true else if c = '\n' then false else fnTailOk1 cs

/-- The `.+\)` part of the `isFunction` regular expression, applied to
    the characters after the opening parenthesis. -/
def fnTailOk : List Char → Bool
  | [] => false
  | c :: cs => if c = '\n' then false else fnTailOk1 cs

/-- The evaluator's recognized function names. -/
def funcNamesList : List String :=
  ["contains", "startsWith", "endsWith", "format", "toJSON", "fromJSON",
   "join", "success", "failure", "always", "cancelled", "hashFiles"]

/-- One alternative of the `isFunction` regular expression:
    the name, optional whitespace, `(`, then `.+\)`. -/
def isFuncName (n : List Char) (t : List Char) : Bool :=
  n.isPrefixOf t &&
    (match (t.drop n.length).dropWhile isWsCh with
      | '(' :: tail => fnTailOk tail
      | _ => false)

/-- `isFunction(expression)`: the trimmed text matches one of the
    recognized call shapes (not anchored at the end). -/
def isFunction (e : List Char) : Bool :=
  funcNamesList.any (fun n => isFuncName n.data (trimL e))

/-- The loop of `parseArguments`: split on depth-0 commas outside
    strings, tracking bracket depth and string state; pieces are trimmed,
    and a trailing empty piece is not kept. -/
def argScan (inStr : Bool) (sc : Char) (depth : Int) (prev : Option Char)
    (cur : List Char) (acc : List (List Char)) : List Char → List (List Char)
  | [] => if (trimL cur.reverse).isEmpty then acc else acc ++ [trimL cur.reverse]
  | c :: rest =>
    if inStr = false then
      if c = chDQ ∨ c = chSQ then argScan true c depth (some c) (c :: cur) acc rest
      else if c = '(' ∨ c = '[' then argScan false sc (depth + 1) (some c) (c :: cur) acc rest
      else if c = ')' ∨ c = ']' then argScan false sc (depth - 1) (some c) (c :: cur) acc rest
      else if c = ',' ∧ depth = 0 then
        argScan false sc depth (some c) [] (acc ++ [trimL cur.reverse]) rest
      else argScan false sc depth (some c) (c :: cur) acc rest
    else
      if c = sc ∧ ¬ prev = some chBS then argScan false sc depth (some c) (c :: cur) acc rest
      else argScan true sc depth (some c) (c :: cur) acc rest

/-- `parseArguments(argsString)`. -/
def parseArgumentsL (l : List Char) : List (List Char) :=
  argScan false ' ' 0 none [] [] l

/-- The anchored call-shape match `^name\((.+)\)$`: the inner argument
    text, when the expression is exactly a call of `name` (nonempty
    newline-free inside, closing parenthesis last). -/
def stripCall (name : String) (e : List Char) : Option (List Char) :=
  let p := name.data ++ ['(']
  if p.isPrefixOf e ∧ e.getLast? = some ')' ∧ p.length + 2 ≤ e.length then
    let inner := (e.drop p.length).dropLast
    if inner.any (fun c => c = '\n') then none else some inner
  else none

/-! ### Property access -/

/-- Canonical array-index key, as JS `in` sees own array properties:
    decimal digits without a leading zero (except "0" itself). -/
def isCanonIdx (l : List Char) : Bool :=
  match l with
  | [] => false
  | ['0'] => true
  | c :: cs => isDigitCh c && c != '0' && cs.all isDigitCh

/-- The guard `current && typeof current === 'object' && part in current`:
    true for an object with the key, or an array with `length` or an
    in-range canonical index (null, though `typeof`-object, is falsy). -/
def hasProp : Value → String → Bool
  | .obj fields, k => fields.any (fun kv => kv.1 = k)
  | .arr elems, k =>
    k == "length" || (isCanonIdx k.data && digitsVal k.data < elems.length)
  | _, _ => false

/-- `current[part]` for the cases `hasProp` admits. -/
def getProp : Value → String → Value
  | .obj fields, k => (((fields.find? (fun kv => kv.1 = k)).map Prod.snd).getD .undef)
  | .arr elems, k =>
    if k = "length" then .num (.fin (mkDec (Int.ofNat elems.length) 0))
    else (elems.get? (digitsVal k.data)).getD .undef
  | _, _ => (.undef : Value)

/-- `path = path ? path + '.' + part : part`. -/
def joinPath (path part : List Char) : List Char :=
  if path.isEmpty then part else path ++ '.' :: part

/-- The walk of `evaluatePropertyAccess`: through the dotted parts,
    accumulating one hit per successful step (the path so far), failing
    on a missing property. -/
def propWalk (hits : List String) (path : List Char) (current : Value) :
    List (List Char) → Except String (Value × List String)
  | [] => .ok (current, hits)
  | part :: rest =>
    let p2 := joinPath path part
    if hasProp current (String.mk part) then
      propWalk (hits ++ [String.mk p2]) p2 (getProp current (String.mk part)) rest
    else
      .error ("Property " ++ sqs ++ String.mk part ++ sqs ++
        " not found in context " ++ sqs ++ String.mk p2 ++ sqs)

/-- `evaluatePropertyAccess(expression, contextHits)`: walk the dotted
    parts from the context object. -/
def evaluatePropertyAccess (ctx : EvaluationContext) (e : List Char)
    (hits : List String) : Except String ExpressionResult :=
  match propWalk hits [] (ctxToValue ctx) (splitOnDot e) with
  | .ok (v, hits2) => .ok ⟨v, typeofVal v, hits2, none⟩
  | .error m => .error m

/-- The scan of `evaluateChainedPropertyAccess` for the first dot at
    parenthesis depth 0. -/
def firstTopDot (pc : Int) (i : Nat) : List Char → Option Nat
  | [] => none
  | c :: rest =>
    if c = '.' ∧ pc = 0 then some i
    else
      let pc2 := if c = '(' then pc + 1 else if c = ')' then pc - 1 else pc
      firstTopDot pc2 (i + 1) rest

/-- The walk over the property part of a chained access: like
    `propWalk`, but over the function result, with hit paths rooted at
    the literal "result". -/
def chainWalk (hits : List String) (path : List Char) (current : Value) :
    List (List Char) → Except String (Value × List String)
  | [] => .ok (current, hits)
  | prop :: rest =>
    if hasProp current (String.mk prop) then
      let p2 := path ++ '.' :: prop
      chainWalk (hits ++ [String.mk p2]) p2 (getProp current (String.mk prop)) rest
    else
      .error ("Property " ++ sqs ++ String.mk prop ++ sqs ++ " not found in result")

/-- `evaluateChainedPropertyAccess(expression, contextHits)`: split at
    the first depth-0 dot, evaluate the call part, then walk properties
    on its value (re-dispatching when there is no such dot). -/
def evaluateChainedPropertyAccess (recur : EvalFn) (e : List Char)
    (hits : List String) : Except String ExpressionResult :=
  match firstTopDot 0 0 e with
  | none => recur e
  | some i =>
    let functionPart := e.take i
    let propertyPart := e.drop (i + 1)
    match recur functionPart with
    | .error m => .error m
    | .ok functionResult =>
      if functionResult.error.isSome then .ok functionResult
      else
        match chainWalk (hits ++ functionResult.contextHits) "result".data
            functionResult.value (splitOnDot propertyPart) with
        | .ok (v, hits2) => .ok ⟨v, typeofVal v, hits2, none⟩
        | .error m => .error m

/-! ### Comparison and logical operators -/

/-- The six comparison operators. -/
inductive CmpOp where
  | ceq
  | cne
  | cgt
  | clt
  | cge
  | cle

/-- The operator's source text. -/
def cmpOpChars : CmpOp → List Char
  | .ceq => ['=', '=']
  | .cne => ['!', '=']
  | .cgt => ['>']
  | .clt => ['<']
  | .cge => ['>', '=']
  | .cle => ['<', '=']

/-- The comparison a `switch` arm computes: loose equality for `==`/`!=`,
    `Number`-coercion of both sides for the relational operators. -/
def cmpApply : CmpOp → Value → Value → Bool
  | .ceq, a, b => jsEq a b
  | .cne, a, b => ! jsEq a b
  | .cgt, a, b => jsNumLt (jsToNumber b) (jsToNumber a)
  | .clt, a, b => jsNumLt (jsToNumber a) (jsToNumber b)
  | .cge, a, b => jsNumLe (jsToNumber b) (jsToNumber a)
  | .cle, a, b => jsNumLe (jsToNumber a) (jsToNumber b)

/-- `evaluateComparison(expression, operator, contextHits)`: split at
    the first raw occurrence of the operator text, evaluate both sides,
    pass through a side's error result, else compare. -/
def evaluateComparison (recur : EvalFn) (e : List Char) (op : CmpOp)
    (hits : List String) : Except String ExpressionResult :=
  match idxOfSub (cmpOpChars op) e with
  | none =>
    .error ("Operator " ++ String.mk (cmpOpChars op) ++
      " not found in expression: " ++ String.mk e)
  | some i =>
    let leftPart := trimL (e.take i)
    let rightPart := trimL (e.drop (i + (cmpOpChars op).length))
    if leftPart.isEmpty ∨ rightPart.isEmpty then
      .error ("Invalid comparison expression: " ++ String.mk e)
    else
      match recur leftPart with
      | .error m => .error m
      | .ok leftResult =>
        match recur rightPart with
        | .error m => .error m
        | .ok rightResult =>
          if leftResult.error.isSome then .ok leftResult
          else if rightResult.error.isSome then .ok rightResult
          else
            .ok ⟨.bool (cmpApply op leftResult.value rightResult.value), "boolean",
              hits ++ leftResult.contextHits ++ rightResult.contextHits, none⟩

/-- The two logical operators. -/
inductive LogOp where
  | andOp
  | orOp

/-- The operator's (doubled) character. -/
def logOpChar : LogOp → Char
  | .andOp => '&'
  | .orOp => '|'

/-- The operator's source text. -/
def logOpStr (op : LogOp) : String := String.mk [logOpChar op, logOpChar op]

/-- `evaluateLogicalOperation(expression, operator, contextHits)`:
    split at the last depth-0 occurrence, evaluate the left side; a falsy
    left short-circuits `&&` (a truthy left short-circuits `||`) to the
    left value; otherwise the right side's value is returned.  Both arms
    return the operand's value and type, never a coerced boolean. -/
def evaluateLogicalOperation (recur : EvalFn) (e : List Char) (op : LogOp)
    (hits : List String) : Except String ExpressionResult :=
  match findLastOperatorIndex e (logOpChar op) with
  | none =>
    .error ("Operator " ++ logOpStr op ++ " not found in expression: " ++ String.mk e)
  | some i =>
    let leftPart := trimL (e.take i)
    let rightPart := trimL (e.drop (i + 2))
    if leftPart.isEmpty ∨ rightPart.isEmpty then
      .error ("Invalid logical expression: " ++ String.mk e)
    else
      match recur leftPart with
      | .error m => .error m
      | .ok leftResult =>
        if leftResult.error.isSome then .ok leftResult
        else
          let hits1 := hits ++ leftResult.contextHits
          let shortCircuit : Bool := match op with
            | .andOp => ! isTruthy leftResult.value
            | .orOp => isTruthy leftResult.value
          if shortCircuit then .ok ⟨leftResult.value, leftResult.type, hits1, none⟩
          else
            match recur rightPart with
            | .error m => .error m
            | .ok rightResult =>
              if rightResult.error.isSome then .ok rightResult
              else .ok ⟨rightResult.value, rightResult.type,
                hits1 ++ rightResult.contextHits, none⟩

/-! ### The function library helpers -/

/-- `evaluateContainsFunction`: both arguments are String-coerced and the
    test is substring containment (`String.prototype.includes`), for
    arrays as well as strings. -/
def evaluateContainsFunction (recur : EvalFn) (e : List Char)
    (hits : List String) : Except String ExpressionResult :=
  match stripCall "contains" e with
  | none => .error ("Invalid contains() function: " ++ String.mk e)
  | some inner =>
    match parseArgumentsL inner with
    | [a1, a2] =>
      match recur (trimL a1) with
      | .error m => .error m
      | .ok searchInResult =>
        match recur (trimL a2) with
        | .error m => .error m
        | .ok searchForResult =>
          .ok ⟨.bool (includesSub (jsToChars searchForResult.value)
                (jsToChars searchInResult.value)), "boolean",
            hits ++ searchInResult.contextHits ++ searchForResult.contextHits, none⟩
    | args =>
      .error ("contains() requires exactly 2 arguments, got " ++ toString args.length)

/-- Which of the two string-predicate functions. -/
inductive StrFn where
  | swFn
  | ewFn

/-- The function's name text. -/
def strFnName : StrFn → String
  | .swFn => "startsWith"
  | .ewFn => "endsWith"

/-- `evaluateStringFunction` (`startsWith`/`endsWith`): String-coerce
    both arguments; test the head or tail. -/
def evaluateStringFunction (recur : EvalFn) (e : List Char) (fn : StrFn)
    (hits : List String) : Except String ExpressionResult :=
  match stripCall (strFnName fn) e with
  | none => .error ("Invalid string function: " ++ String.mk e)
  | some inner =>
    match parseArgumentsL inner with
    | [a1, a2] =>
      match recur (trimL a1) with
      | .error m => .error m
      | .ok stringResult =>
        match recur (trimL a2) with
        | .error m => .error m
        | .ok searchResult =>
          let str := jsToChars stringResult.value
          let search := jsToChars searchResult.value
          let value : Bool := match fn with
            | .swFn => search.isPrefixOf str
            | .ewFn => search.isSuffixOf str
          .ok ⟨.bool value, "boolean",
            hits ++ stringResult.contextHits ++ searchResult.contextHits, none⟩
    | args =>
      .error (strFnName fn ++ "() requires exactly 2 arguments, got " ++
        toString args.length)

/-- `evaluateStatusFunction`: demo statuses — success and always are
    true, failure and cancelled false. -/
def evaluateStatusFunction : String → Bool
  | "success" => true
  | "failure" => false
  | "cancelled" => false
  | "always" => true
  | _ => false

/-- Replace every occurrence of `pat` (JS `replace` with a global
    regular expression made of literal characters). -/
def replaceAllSub (pat rep : List Char) (l : List Char) : List Char :=
  match l with
  | [] => []
  | c :: cs =>
    if pat.isPrefixOf (c :: cs) ∧ ¬ pat.isEmpty then
      rep ++ replaceAllSub pat rep (cs.drop (pat.length - 1))
    else c :: replaceAllSub pat rep cs
termination_by l.length
decreasing_by
  all_goals simp
  all_goals omega

/-- The `{i}` placeholder text for argument `i`. -/
def placeholder (i : Nat) : List Char := chLB :: (natDigits i ++ [chRB])

/-- The loop of `evaluateFormatFunction` over the value arguments:
    each is evaluated, its hits recorded and its String-coercion
    substituted (sequentially) for the corresponding placeholder. -/
def formatLoop (recur : EvalFn) (idx : Nat) (fs : List Char) (hits : List String) :
    List (List Char) → Except String (List Char × List String)
  | [] => .ok (fs, hits)
  | a :: rest =>
    match recur a with
    | .error m => .error m
    | .ok argResult =>
      formatLoop recur (idx + 1)
        (replaceAllSub (placeholder idx) (jsToChars argResult.value) fs)
        (hits ++ argResult.contextHits) rest

/-- `evaluateFormatFunction`. -/
def evaluateFormatFunction (recur : EvalFn) (e : List Char)
    (hits : List String) : Except String ExpressionResult :=
  match stripCall "format" e with
  | none => .error ("Invalid format() function: " ++ String.mk e)
  | some inner =>
    match parseArgumentsL inner with
    | [] => .error "format() requires at least one argument"
    | a0 :: rest =>
      match recur a0 with
      | .error m => .error m
      | .ok formatResult =>
        match formatLoop recur 0 (jsToChars formatResult.value)
            (hits ++ formatResult.contextHits) rest with
        | .error m => .error m
        | .ok (fs, hits2) => .ok ⟨.str (String.mk fs), "string", hits2, none⟩

/-- `evaluateToJSONFunction`: `JSON.stringify` of the argument's value
    (undefined when JS would return undefined). -/
def evaluateToJSONFunction (recur : EvalFn) (e : List Char)
    (hits : List String) : Except String ExpressionResult :=
  match stripCall "toJSON" e with
  | none => .error ("Invalid toJSON() function: " ++ String.mk e)
  | some inner =>
    match recur (trimL inner) with
    | .error m => .error m
    | .ok argResult =>
      let v : Value := match jsonStringify argResult.value with
        | some s => .str s
        | none => .undef
      .ok ⟨v, "string", hits ++ argResult.contextHits, none⟩

/-- `evaluateFromJSONFunction`: `JSON.parse` of the String-coerced
    argument value; a parse failure throws. -/
def evaluateFromJSONFunction (recur : EvalFn) (e : List Char)
    (hits : List String) : Except String ExpressionResult :=
  match stripCall "fromJSON" e with
  | none => .error ("Invalid fromJSON() function: " ++ String.mk e)
  | some inner =>
    match recur (trimL inner) with
    | .error m => .error m
    | .ok argResult =>
      match jsonParse (jsToString argResult.value) with
      | some parsed => .ok ⟨parsed, typeofVal parsed, hits ++ argResult.contextHits, none⟩
      | none => .error ("Invalid JSON in fromJSON(): " ++ jsToString argResult.value)

/-- `array.map(item => String(item)).join(separator)`. -/
def joinChars (sep : List Char) : List Value → List Char
  | [] => []
  | [v] => jsToChars v
  | v :: rest => jsToChars v ++ sep ++ joinChars sep rest

/-- The array coercion of `evaluateJoinFunction`: arrays stay, loose-null
    values give the empty array, any other scalar a singleton. -/
def joinArrayOf : Value → List Value
  | .arr elems => elems
  | .null => []
  | .undef => []
  | v => [v]

/-- `evaluateJoinFunction`: 1 or 2 arguments; the separator defaults to
    a comma and is otherwise the String-coercion of the second value. -/
def evaluateJoinFunction (recur : EvalFn) (e : List Char)
    (hits : List String) : Except String ExpressionResult :=
  match stripCall "join" e with
  | none => .error ("Invalid join() function: " ++ String.mk e)
  | some inner =>
    match parseArgumentsL inner with
    | [a1] =>
      match recur (trimL a1) with
      | .error m => .error m
      | .ok arrayResult =>
        .ok ⟨.str (String.mk (joinChars [','] (joinArrayOf arrayResult.value))),
          "string", hits ++ arrayResult.contextHits, none⟩
    | [a1, a2] =>
      match recur (trimL a1) with
      | .error m => .error m
      | .ok arrayResult =>
        match recur (trimL a2) with
        | .error m => .error m
        | .ok sepResult =>
          .ok ⟨.str (String.mk (joinChars (jsToChars sepResult.value)
                (joinArrayOf arrayResult.value))), "string",
            hits ++ arrayResult.contextHits ++ sepResult.contextHits, none⟩
    | args =>
      .error ("join() requires 1 or 2 arguments, got " ++ toString args.length)

/-! ### The dispatcher (`parseAndEvaluate`) and entry point -/

/-- The anchored status-function match
    `^(success|failure|always|cancelled)\(\)$`. -/
def statusCallName (e : List Char) : Option String :=
  if e = "success()".data then some "success"
  else if e = "failure()".data then some "failure"
  else if e = "always()".data then some "always"
  else if e = "cancelled()".data then some "cancelled"
  else none

/-- The unanchored call-start match `^name\(`. -/
def startsFn (n : String) (e : List Char) : Bool :=
  (n.data ++ ['(']).isPrefixOf e

/-- The context-root alternation of the dispatcher (the two names job
    and steps are accepted but absent from the context, so they read as
    undefined). -/
def rootNameList : List String :=
  ["github", "env", "vars", "secrets", "inputs", "needs", "runner",
   "matrix", "strategy", "job", "steps"]

/-- `this.context[expression]` for an accepted root name. -/
def ctxRootVal (c : EvaluationContext) : String → Value
  | "env" => c.env
  | "vars" => c.vars
  | "secrets" => c.secrets
  | "inputs" => c.inputs
  | "github" => c.github
  | "matrix" => c.matrix
  | "needs" => c.needs
  | "runner" => c.runner
  | "strategy" => c.strategy
  | _ => (.undef : Value)

/-- The number-literal test `^-?\d+(\.\d+)?$`. -/
def isNumLit (l : List Char) : Bool :=
  let body := match l with
    | '-' :: r => r
    | _ => l
  let (ds, r1) := takeDigitRun body
  if ds.isEmpty then false
  else
    match r1 with
    | [] => true
    | '.' :: t =>
      let (fs, r2) := takeDigitRun t
      !fs.isEmpty && r2.isEmpty
    | _ => false

/-- `parseFloat` on a matched number literal (exact on this grammar). -/
def numLitVal (l : List Char) : Dec :=
  let (neg, body) : Bool × List Char := match l with
    | '-' :: r => (true, r)
    | _ => (false, l)
  let (ds, r1) := takeDigitRun body
  let (fs, _) := match r1 with
    | '.' :: t => takeDigitRun t
    | _ => (([] : List Char), r1)
  decOfParts neg (digitsVal ds) (digitsVal fs) fs.length 0

/-- `parseAndEvaluate(expression)`: the dispatcher, checked in source
    order — status calls, the seven function shapes, hashFiles, `||`
    then `&&` outside parentheses, negation, the six comparison operators
    by raw substring, property access (plain, then chained), string,
    boolean and number literals, and context roots; anything else throws.
    The fuel argument models the JS call stack: each recursive call runs
    one frame deeper, and exhaustion is the (catchable) engine
    RangeError. -/
def parseAndEvaluate (ctx : EvaluationContext) :
    Nat → List Char → Except String ExpressionResult
  | 0, _ => .error "Maximum call stack size exceeded"
  | fuel + 1, expression =>
    match statusCallName expression with
    | some funcName =>
      .ok ⟨.bool (evaluateStatusFunction funcName), "boolean",
        ["functions." ++ funcName], none⟩
    | none =>
      if startsFn "contains" expression then
        evaluateContainsFunction (parseAndEvaluate ctx fuel) expression []
      else if startsFn "startsWith" expression then
        evaluateStringFunction (parseAndEvaluate ctx fuel) expression .swFn []
      else if startsFn "endsWith" expression then
        evaluateStringFunction (parseAndEvaluate ctx fuel) expression .ewFn []
      else if startsFn "format" expression then
        evaluateFormatFunction (parseAndEvaluate ctx fuel) expression []
      else if startsFn "toJSON" expression then
        evaluateToJSONFunction (parseAndEvaluate ctx fuel) expression []
      else if startsFn "fromJSON" expression then
        evaluateFromJSONFunction (parseAndEvaluate ctx fuel) expression []
      else if startsFn "join" expression then
        evaluateJoinFunction (parseAndEvaluate ctx fuel) expression []
      else if startsFn "hashFiles" expression then
        .ok ⟨.null, "error", [],
          some "hashFiles() requires workspace files (not available in this demo)"⟩
      else if containsOperatorOutsideParens expression '|' then
        evaluateLogicalOperation (parseAndEvaluate ctx fuel) expression .orOp []
      else if containsOperatorOutsideParens expression '&' then
        evaluateLogicalOperation (parseAndEvaluate ctx fuel) expression .andOp []
      else if expression.head? = some '!' ∧ ¬ includesSub ['!', '='] expression then
        match parseAndEvaluate ctx fuel (trimL (expression.drop 1)) with
        | .error m => .error m
        | .ok innerResult =>
          .ok ⟨.bool (! isTruthy innerResult.value), "boolean",
            innerResult.contextHits, none⟩
      else if includesSub ['>', '='] expression then
        evaluateComparison (parseAndEvaluate ctx fuel) expression .cge []
      else if includesSub ['<', '='] expression then
        evaluateComparison (parseAndEvaluate ctx fuel) expression .cle []
      else if includesSub ['>'] expression then
        evaluateComparison (parseAndEvaluate ctx fuel) expression .cgt []
      else if includesSub ['<'] expression then
        evaluateComparison (parseAndEvaluate ctx fuel) expression .clt []
      else if includesSub ['=', '='] expression then
        evaluateComparison (parseAndEvaluate ctx fuel) expression .ceq []
      else if includesSub ['!', '='] expression then
        evaluateComparison (parseAndEvaluate ctx fuel) expression .cne []
      else if includesSub ['.'] expression ∧ ¬ isFunction expression = true
          ∧ ¬ hasOperators expression = true then
        evaluatePropertyAccess ctx expression []
      else if includesSub ['.'] expression ∧ isFunction expression
          ∧ ¬ hasOperators expression = true then
        evaluateChainedPropertyAccess (parseAndEvaluate ctx fuel) expression []
      else if (expression.head? = some chSQ ∧ expression.getLast? = some chSQ)
          ∨ (expression.head? = some chDQ ∧ expression.getLast? = some chDQ) then
        .ok ⟨.str (String.mk (expression.drop 1).dropLast), "string", [], none⟩
      else if expression = "true".data then .ok ⟨.bool true, "boolean", [], none⟩
      else if expression = "false".data then .ok ⟨.bool false, "boolean", [], none⟩
      else if isNumLit expression then
        .ok ⟨.num (.fin (numLitVal expression)), "number", [], none⟩
      else if rootNameList.any (fun n => expression = n.data) then
        let value := ctxRootVal ctx (String.mk expression)
        .ok ⟨value, typeofVal value, [String.mk expression], none⟩
      else .error ("Unable to parse expression: " ++ String.mk expression)

/-- The `${{ ... }}` unwrapping of `evaluateExpression`: strip a leading
    dollar-brace-brace with following whitespace, then a trailing
    whitespace-brace-brace, then trim. -/
def stripWrapperAndTrim (s : List Char) : List Char :=
  let s1 := if ['$', chLB, chLB].isPrefixOf s then (s.drop 3).dropWhile isWsCh else s
  let s2 := if s1.reverse.take 2 = [chRB, chRB] then
    ((s1.reverse.drop 2).dropWhile isWsCh).reverse
  else s1
  trimL s2

/-- `evaluateExpression(expression)`: unwrap and trim, reject empty,
    evaluate; a thrown error (including fuel exhaustion, the modelled
    stack overflow) is caught and becomes a result with null value,
    type "error", no hits and the message; a normal result is returned
    with `success: true`. -/
def evaluateExpression (ctx : EvaluationContext) (fuel : Nat)
    (expression : String) : FinalResult :=
  let clean := stripWrapperAndTrim expression.data
  let attempt : Except String ExpressionResult :=
    if clean.isEmpty then .error "Empty expression"
    else parseAndEvaluate ctx fuel clean
  match attempt with
  | .ok r => ⟨r.value, r.type, r.contextHits, r.error, true⟩
  | .error m => ⟨.null, "error", [], some m, false⟩

/-! ### Demonstration contexts -/

/-- An empty context root. -/
def emptyObj : Value := .obj []

/-- The scenario context from the specification: a github root carrying
    only `ref`, every other root empty. -/
def refCtx : EvaluationContext :=
  { env := emptyObj, vars := emptyObj, secrets := emptyObj, inputs := emptyObj
    github := .obj [("ref", .str "refs/heads/main")]
    matrix := emptyObj, needs := emptyObj, runner := emptyObj, strategy := emptyObj }

/-! ### Claims -/

/-- Claim C1, counterexample: for the context with
    github.ref = "refs/heads/main", evaluating
    github.ref == 'refs/heads/main' does not give contextHits exactly
    ["github.ref"]: the evaluator also records the bare root "github"
    (the hit list is ["github", "github.ref"]). -/
theorem c1_scenario_counterexample :
    (evaluateExpression refCtx 50 "github.ref == 'refs/heads/main'").contextHits
      ≠ ["github.ref"] := by decide

/-- Claim C1, amended: the scenario's value is true and its type tag
    "boolean" as claimed, but the contextHits sequence is
    ["github", "github.ref"] — property access records every dotted
    prefix of the path it walks, the bare root included. -/
theorem c1_scenario_amended :
    evaluateExpression refCtx 50 "github.ref == 'refs/heads/main'" =
      ⟨.bool true, "boolean", ["github", "github.ref"], none, true⟩ := rfl

/-- Claim C3, counterexample: comparing the non-numeric string 'abc'
    relationally against 5 does not fail with a TypeError — it returns a
    normal boolean result (value false, no error, success). -/
theorem c3_relational_nan_counterexample :
    evaluateExpression refCtx 50 "'abc' > 5" =
      ⟨.bool false, "boolean", [], none, true⟩ := rfl

/-- Is the operator one of the four relational comparisons? -/
def CmpOp.isRel : CmpOp → Bool
  | .cgt => true
  | .clt => true
  | .cge => true
  | .cle => true
  | _ => false

/-- NaN on the left defeats `<`. -/
theorem jsNumLt_nan_left (a : JsNum) : jsNumLt .nan a = false := by
  cases a <;> rfl

/-- NaN on the left defeats `<=`. -/
theorem jsNumLe_nan_left (a : JsNum) : jsNumLe .nan a = false := by
  cases a <;> rfl

/-- NaN on the right defeats `<`. -/
theorem jsNumLt_nan_right (a : JsNum) : jsNumLt a .nan = false := by
  cases a <;> rfl

/-- NaN on the right defeats `<=`. -/
theorem jsNumLe_nan_right (a : JsNum) : jsNumLe a .nan = false := by
  cases a <;> rfl

/-- Claim C3, amended: a relational comparison coerces both operand
    values to Number and returns the numeric comparison as a boolean
    result with no error; an operand that coerces to NaN (for example a
    non-numeric String) makes every relational comparison false — no
    TypeError is raised. -/
theorem c3_relational_nan_amended (recur : EvalFn) (e : List Char) (op : CmpOp)
    (hits : List String) (i : Nat) (lres rres : ExpressionResult)
    (hop : op.isRel = true)
    (hidx : idxOfSub (cmpOpChars op) e = some i)
    (hlne : (trimL (e.take i)).isEmpty = false)
    (hrne : (trimL (e.drop (i + (cmpOpChars op).length))).isEmpty = false)
    (hl : recur (trimL (e.take i)) = .ok lres)
    (hr : recur (trimL (e.drop (i + (cmpOpChars op).length))) = .ok rres)
    (hle : lres.error = none) (hre : rres.error = none) :
    evaluateComparison recur e op hits =
      .ok ⟨.bool (cmpApply op lres.value rres.value), "boolean",
        hits ++ lres.contextHits ++ rres.contextHits, none⟩
    ∧ ((jsToNumber lres.value = .nan ∨ jsToNumber rres.value = .nan) →
        cmpApply op lres.value rres.value = false) := by
  constructor
  · simp [evaluateComparison, hidx, hlne, hrne, hl, hr, hle, hre]
  · intro h
    cases op <;> first
      | exact Bool.noConfusion hop
      | rcases h with h | h <;>
          simp [cmpApply, h, jsNumLt_nan_right, jsNumLe_nan_right, jsNumLt_nan_left, jsNumLe_nan_left]

/-- Claim C3 witness: the comparison 'abc' > 5 evaluated through the
    evaluator's own comparison routine yields the boolean false with no
    error, and the left operand's Number coercion is NaN. -/
theorem c3_relational_nan_witness :
    evaluateComparison (parseAndEvaluate refCtx 49) "'abc' > 5".data .cgt [] =
      .ok ⟨.bool false, "boolean", [], none⟩
    ∧ jsToNumber (Value.str "abc") = .nan := by
  have h := c3_relational_nan_amended (parseAndEvaluate refCtx 49) "'abc' > 5".data
    .cgt [] 6 ⟨.str "abc", "string", [], none⟩ ⟨.num (.fin ⟨5, 0⟩), "number", [], none⟩
    rfl rfl rfl rfl rfl rfl rfl rfl
  exact ⟨h.1, rfl⟩

/-- Claim C4, counterexample: the claim's rule would compare a Boolean
    against a String by coercing both to String, making
    true == 'true' evaluate to true; the evaluator instead coerces the
    Boolean (and then the String) to Number, giving false. -/
theorem c4_loose_eq_counterexample :
    evaluateExpression refCtx 50 "true == 'true'" =
      ⟨.bool false, "boolean", [], none, true⟩
    ∧ ("true" = "true") := ⟨rfl, rfl⟩

/-- Claim C4, amended: == and != implement JS loose equality on
    scalars — Null equals only Null (and undefined); if one side is a
    Number the other is coerced to Number; a Boolean operand is itself
    coerced to Number first, so Boolean-vs-String compares numerically,
    never textually; only String-vs-String compares as strings; != is
    the negation. -/
theorem c4_loose_eq_amended (a b : String) (x y : JsNum) (p q : Bool) (u v : Value) :
    jsEq (.str a) (.str b) = decide (a = b)
    ∧ jsEq (.num x) (.num y) = jsNumEq x y
    ∧ jsEq (.num x) (.str b) = jsNumEq x (strToNum b.data)
    ∧ jsEq (.str a) (.num y) = jsNumEq (strToNum a.data) y
    ∧ jsEq (.bool p) (.str b) = jsNumEq (boolToNum p) (strToNum b.data)
    ∧ jsEq (.str a) (.bool q) = jsNumEq (strToNum a.data) (boolToNum q)
    ∧ jsEq (.bool p) (.num y) = jsNumEq (boolToNum p) y
    ∧ jsEq (.num x) (.bool q) = jsNumEq x (boolToNum q)
    ∧ jsEq (.bool p) (.bool q) = decide (p = q)
    ∧ jsEq .null .null = true
    ∧ jsEq .null .undef = true
    ∧ jsEq .null (.bool q) = false
    ∧ jsEq .null (.num y) = false
    ∧ jsEq .null (.str b) = false
    ∧ jsEq (.bool p) .null = false
    ∧ jsEq (.num x) .null = false
    ∧ jsEq (.str a) .null = false
    ∧ cmpApply .ceq u v = jsEq u v
    ∧ cmpApply .cne u v = ! jsEq u v :=
  ⟨rfl, rfl, rfl, rfl, rfl, rfl, rfl, rfl, rfl, rfl, rfl, rfl, rfl, rfl, rfl,
   rfl, rfl, rfl, rfl⟩

/-- Claim C6, counterexample: the successful evaluation of
    github.ref == github.ref reads the path github.ref twice and its
    contextHits sequence records every read, so the sequence is not
    duplicate-free. -/
theorem c6_hits_counterexample :
    (evaluateExpression refCtx 50 "github.ref == github.ref").error = none
    ∧ (evaluateExpression refCtx 50 "github.ref == github.ref").contextHits =
        ["github", "github.ref", "github", "github.ref"]
    ∧ ¬ (["github", "github.ref", "github", "github.ref"] : List String).Nodup :=
  ⟨rfl, rfl, by decide⟩

/-- Claim C7, counterexample: with a = the one-element array ["ab"] and
    b = 'a', no element of a loosely-equals b (so the claim predicts
    false), yet contains returns true, because it String-coerces the
    array and tests substring containment. -/
theorem c7_contains_counterexample :
    evaluateExpression refCtx 50 "contains(fromJSON('[\"ab\"]'), 'a')" =
      ⟨.bool true, "boolean", [], none, true⟩
    ∧ jsEq (.str "ab") (.str "a") = false := ⟨rfl, rfl⟩

/-- Claim C7, amended: contains(a, b) String-coerces both evaluated
    arguments and returns whether the coercion of b occurs as a substring
    of the coercion of a — for an Array a this joins the element prints
    with commas first; there is no element-wise loose-equality test. -/
theorem c7_contains_amended (recur : EvalFn) (e inner a1 a2 : List Char)
    (hits : List String) (r1 r2 : ExpressionResult)
    (hstrip : stripCall "contains" e = some inner)
    (hargs : parseArgumentsL inner = [a1, a2])
    (h1 : recur (trimL a1) = .ok r1) (h2 : recur (trimL a2) = .ok r2) :
    evaluateContainsFunction recur e hits =
      .ok ⟨.bool (includesSub (jsToChars r2.value) (jsToChars r1.value)), "boolean",
        hits ++ r1.contextHits ++ r2.contextHits, none⟩ := by
  simp [evaluateContainsFunction, hstrip, hargs, h1, h2]

/-- Claim C7 witness: contains applied to the array ["ab"] and the
    string 'a' String-coerces the array to "ab" and finds the substring,
    returning true. -/
theorem c7_contains_witness :
    evaluateContainsFunction (parseAndEvaluate refCtx 49)
      "contains(fromJSON('[\"ab\"]'), 'a')".data [] =
      .ok ⟨.bool true, "boolean", [], none⟩ := by
  have h := c7_contains_amended (parseAndEvaluate refCtx 49)
    "contains(fromJSON('[\"ab\"]'), 'a')".data "fromJSON('[\"ab\"]'), 'a'".data
    "fromJSON('[\"ab\"]')".data "'a'".data []
    ⟨.arr [.str "ab"], "object", [], none⟩ ⟨.str "a", "string", [], none⟩
    rfl rfl rfl rfl
  exact h

/-- The dotted paths that a property walk continuing from `path` pushes:
    one entry per part, each extending the previous by that part. -/
def pathsFrom (path : List Char) : List (List Char) → List String
  | [] => []
  | part :: rest =>
    String.mk (joinPath path part) :: pathsFrom (joinPath path part) rest

/-- Claim C6, amended: contextHits is recorded in evaluation order, one
    entry per successful property-access step (every dotted prefix of
    each walked path); reading the same path twice records it twice, so
    the sequence is not duplicate-free, and evaluating a status function
    records a synthetic functions.NAME entry that is not a context
    path. -/
theorem c6_hits_amended :
    (∀ (hits : List String) (path : List Char) (cur : Value)
        (parts : List (List Char)) (v : Value) (hits2 : List String),
        propWalk hits path cur parts = .ok (v, hits2) →
        hits2 = hits ++ pathsFrom path parts)
    ∧ (evaluateExpression refCtx 50 "github.ref == github.ref").contextHits =
        ["github", "github.ref", "github", "github.ref"]
    ∧ (evaluateExpression refCtx 50 "success()").contextHits =
        ["functions.success"] := by
  refine ⟨?_, rfl, rfl⟩
  intro hits path cur parts
  induction parts generalizing hits path cur with
  | nil =>
    intro v hits2 h
    simp only [propWalk, Except.ok.injEq, Prod.mk.injEq] at h
    simp [← h.2, pathsFrom]
  | cons part rest ih =>
    intro v hits2 h
    simp only [propWalk] at h
    split at h
    · have := ih _ _ _ _ _ h
      simp [this, pathsFrom]
    · exact absurd h (by simp)

/-- Claim C6 witness: walking github.ref from the demonstration context
    pushes exactly the dotted prefixes of the path. -/
theorem c6_hits_witness :
    (["github", "github.ref"] : List String) =
      [] ++ pathsFrom [] (splitOnDot "github.ref".data) :=
  c6_hits_amended.1 [] [] (ctxToValue refCtx) (splitOnDot "github.ref".data)
    (.str "refs/heads/main") ["github", "github.ref"] rfl

/-- Claim C8, counterexample: 1 == 1 && 2 == 2 evaluates to true, but
    the explicitly parenthesized (1 == 1) && (2 == 2) — which the claim
    says is identical — fails with a parse error, because a
    parenthesized comparison is split at the raw == into unparseable
    pieces. -/
theorem c8_precedence_counterexample :
    evaluateExpression refCtx 50 "1 == 1 && 2 == 2" =
      ⟨.bool true, "boolean", [], none, true⟩
    ∧ (evaluateExpression refCtx 50 "(1 == 1) && (2 == 2)").success = false
    ∧ (evaluateExpression refCtx 50 "(1 == 1) && (2 == 2)").error =
        some "Unable to parse expression: (1" := ⟨rfl, rfl, rfl⟩

/-- Claim C8, amended: the dispatcher splits at the last top-level ||
    before anything else, and at the last top-level && before any
    comparison operator is even looked for, so a == b && c == d is
    evaluated as the conjunction of a == b and c == d and || binds
    loosest; but explicit parentheses around comparisons are not
    supported (a parenthesized comparison operand is a parse error), and
    a comparison chain splits at the first occurrence of the operator —
    relational chains associate to the right, not the left (3 > 2 > 1 is
    3 > (2 > 1), which is true, and 1 < 2 < 3 is 1 < (2 < 3), which is
    false). -/
theorem c8_precedence_amended (ctx : EvaluationContext) (fuel : Nat) (e : List Char)
    (hstatus : statusCallName e = none)
    (h1 : startsFn "contains" e = false) (h2 : startsFn "startsWith" e = false)
    (h3 : startsFn "endsWith" e = false) (h4 : startsFn "format" e = false)
    (h5 : startsFn "toJSON" e = false) (h6 : startsFn "fromJSON" e = false)
    (h7 : startsFn "join" e = false) (h8 : startsFn "hashFiles" e = false) :
    (containsOperatorOutsideParens e '|' = true →
      parseAndEvaluate ctx (fuel + 1) e =
        evaluateLogicalOperation (parseAndEvaluate ctx fuel) e .orOp [])
    ∧ (containsOperatorOutsideParens e '|' = false →
        containsOperatorOutsideParens e '&' = true →
        parseAndEvaluate ctx (fuel + 1) e =
          evaluateLogicalOperation (parseAndEvaluate ctx fuel) e .andOp [])
    ∧ evaluateExpression refCtx 50 "3 > 2 > 1" =
        ⟨.bool true, "boolean", [], none, true⟩
    ∧ evaluateExpression refCtx 50 "1 < 2 < 3" =
        ⟨.bool false, "boolean", [], none, true⟩ := by
  refine ⟨?_, ?_, rfl, rfl⟩
  · intro hor
    simp [parseAndEvaluate, hstatus, h1, h2, h3, h4, h5, h6, h7, h8, hor]
  · intro hor hand
    simp [parseAndEvaluate, hstatus, h1, h2, h3, h4, h5, h6, h7, h8, hor, hand]

/-- Claim C8 witness: on 1 == 1 && 2 == 2 the dispatcher hands the whole
    expression to the && logical evaluation before any == is
    considered. -/
theorem c8_precedence_witness :
    parseAndEvaluate refCtx 50 "1 == 1 && 2 == 2".data =
      evaluateLogicalOperation (parseAndEvaluate refCtx 49)
        "1 == 1 && 2 == 2".data .andOp [] :=
  (c8_precedence_amended refCtx 49 "1 == 1 && 2 == 2".data
    rfl rfl rfl rfl rfl rfl rfl rfl rfl).2.1 rfl rfl

/-- Claim C2: logical && and || are value-returning and short-circuit.
    With the expression split at the last top-level occurrence of the
    operator into a left and a right part, if the left part evaluates
    without error then: a falsy left short-circuits && to the left
    value, type and hits — the right part is never evaluated, so no hit
    of the right part can appear, whatever the right part is (including
    one whose evaluation would fail); a truthy left short-circuits ||
    the same way; otherwise the result is the right part's value and
    type with both parts' hits. -/
theorem c2_logical_short_circuit (recur : EvalFn) (e : List Char) (op : LogOp)
    (hits : List String) (i : Nat) (lres : ExpressionResult)
    (hidx : findLastOperatorIndex e (logOpChar op) = some i)
    (hlne : (trimL (e.take i)).isEmpty = false)
    (hrne : (trimL (e.drop (i + 2))).isEmpty = false)
    (hl : recur (trimL (e.take i)) = .ok lres)
    (hle : lres.error = none) :
    (op = .andOp → isTruthy lres.value = false →
      evaluateLogicalOperation recur e op hits =
        .ok ⟨lres.value, lres.type, hits ++ lres.contextHits, none⟩)
    ∧ (op = .orOp → isTruthy lres.value = true →
      evaluateLogicalOperation recur e op hits =
        .ok ⟨lres.value, lres.type, hits ++ lres.contextHits, none⟩)
    ∧ (∀ rres : ExpressionResult,
        recur (trimL (e.drop (i + 2))) = .ok rres → rres.error = none →
        (op = .andOp → isTruthy lres.value = true →
          evaluateLogicalOperation recur e op hits =
            .ok ⟨rres.value, rres.type,
              (hits ++ lres.contextHits) ++ rres.contextHits, none⟩)
        ∧ (op = .orOp → isTruthy lres.value = false →
          evaluateLogicalOperation recur e op hits =
            .ok ⟨rres.value, rres.type,
              (hits ++ lres.contextHits) ++ rres.contextHits, none⟩)) := by
  refine ⟨?_, ?_, ?_⟩
  · rintro rfl hfalsy
    simp [evaluateLogicalOperation, hidx, hlne, hrne, hl, hle, hfalsy]
  · rintro rfl htruthy
    simp [evaluateLogicalOperation, hidx, hlne, hrne, hl, hle, htruthy]
  · intro rres hr hre
    constructor
    · rintro rfl htruthy
      simp [evaluateLogicalOperation, hidx, hlne, hrne, hl, hle, htruthy, hr, hre]
    · rintro rfl hfalsy
      simp [evaluateLogicalOperation, hidx, hlne, hrne, hl, hle, hfalsy, hr, hre]

/-- Claim C2 witness: false && github.nonexistent short-circuits to
    false with no hits, although evaluating the right side alone would
    fail. -/
theorem c2_logical_short_circuit_witness :
    evaluateLogicalOperation (parseAndEvaluate refCtx 49)
      "false && github.nonexistent".data .andOp [] =
      .ok ⟨.bool false, "boolean", [], none⟩
    ∧ (parseAndEvaluate refCtx 49 "github.nonexistent".data).isOk = false :=
  ⟨(c2_logical_short_circuit (parseAndEvaluate refCtx 49)
      "false && github.nonexistent".data .andOp [] 6
      ⟨.bool false, "boolean", [], none⟩ rfl rfl rfl rfl rfl).1 rfl rfl,
   rfl⟩

/-! ### The error-shape invariant (claims C9 and C10) -/

/-- The shape of every error-carrying in-evaluator result: null value,
    type "error", no hits (only the hashFiles branch builds one, and it
    is propagated unchanged). -/
def okInv (r : ExpressionResult) : Prop :=
  r.error.isSome = true → r.value = .null ∧ r.type = "error" ∧ r.contextHits = []

/-- The full invariant on an evaluation outcome: a thrown message is
    nonempty, a returned result satisfies `okInv`. -/
def resInv : Except String ExpressionResult → Prop
  | .error m => m ≠ ""
  | .ok r => okInv r

/-- A string with a nonempty left part is nonempty. -/
theorem msg_ne_left {a b : String} (h : a ≠ "") : a ++ b ≠ "" := by
  cases a with
  | mk l1 =>
    cases b with
    | mk l2 =>
      intro hc
      rcases (List.append_eq_nil).mp (congrArg String.data hc) with ⟨h1, _⟩
      exact h (congrArg String.mk h1)

/-- `resInv` for a thrown message, from its nonemptiness. -/
theorem resInv_error_of_ne {m : String} (h : m ≠ "") : resInv (.error m) := h

/-- `resInv` for a result built with no error. -/
theorem resInv_ok_none {v : Value} {t : String} {hs : List String} :
    resInv (.ok ⟨v, t, hs, none⟩) := fun h => nomatch h

/-- `resInv` for the hashFiles record. -/
theorem resInv_ok_hashfiles {m : String} :
    resInv (.ok ⟨.null, "error", [], some m⟩) := fun _ => ⟨rfl, rfl, rfl⟩

/-- A propagated result of the recursive callback keeps the invariant. -/
theorem resInv_ok_of {E : EvalFn} (hE : ∀ s, resInv (E s)) {s : List Char}
    {r : ExpressionResult} (h : E s = .ok r) : resInv (.ok r) := by
  have := hE s
  rw [h] at this
  exact this

/-- A message thrown through the recursive callback is nonempty. -/
theorem resInv_err_of {E : EvalFn} (hE : ∀ s, resInv (E s)) {s : List Char}
    {m : String} (h : E s = .error m) : m ≠ "" := by
  have := hE s
  rw [h] at this
  exact this

/-- Messages thrown by the property walk are nonempty. -/
theorem propWalk_error_ne (hits : List String) (path : List Char) (cur : Value)
    (parts : List (List Char)) :
    ∀ m, propWalk hits path cur parts = .error m → m ≠ "" := by
  induction parts generalizing hits path cur with
  | nil => intro m h; exact absurd h (by simp [propWalk])
  | cons part rest ih =>
    intro m h
    simp only [propWalk] at h
    split at h
    · exact ih _ _ _ _ h
    · rw [Except.error.injEq] at h
      rw [← h]
      repeat' apply msg_ne_left
      decide

/-- Messages thrown by the chained-result walk are nonempty. -/
theorem chainWalk_error_ne (hits : List String) (path : List Char) (cur : Value)
    (parts : List (List Char)) :
    ∀ m, chainWalk hits path cur parts = .error m → m ≠ "" := by
  induction parts generalizing hits path cur with
  | nil => intro m h; exact absurd h (by simp [chainWalk])
  | cons part rest ih =>
    intro m h
    simp only [chainWalk] at h
    split at h
    · exact ih _ _ _ _ h
    · rw [Except.error.injEq] at h
      rw [← h]
      repeat' apply msg_ne_left
      decide

/-- Messages thrown by the format substitution loop are nonempty. -/
theorem formatLoop_error_ne {E : EvalFn} (hE : ∀ s, resInv (E s))
    (idx : Nat) (fs : List Char) (hits : List String) (args : List (List Char)) :
    ∀ m, formatLoop E idx fs hits args = .error m → m ≠ "" := by
  induction args generalizing idx fs hits with
  | nil => intro m h; exact absurd h (by simp [formatLoop])
  | cons a rest ih =>
    intro m h
    simp only [formatLoop] at h
    split at h
    · rw [Except.error.injEq] at h
      rw [← h]
      exact resInv_err_of hE (by assumption)
    · exact ih _ _ _ _ h

/-- The invariant holds for every comparison evaluation. -/
theorem resInv_comparison {E : EvalFn} (hE : ∀ s, resInv (E s))
    (e : List Char) (op : CmpOp) (hits : List String) :
    resInv (evaluateComparison E e op hits) := by
  simp only [evaluateComparison]
  repeat' split
  all_goals first
    | exact resInv_ok_none
    | exact resInv_ok_of hE (by assumption)
    | exact resInv_error_of_ne (resInv_err_of hE (by assumption))
    | exact resInv_error_of_ne (by (repeat' apply msg_ne_left) <;> decide)

/-- The invariant holds for every logical-operator evaluation. -/
theorem resInv_logical {E : EvalFn} (hE : ∀ s, resInv (E s))
    (e : List Char) (op : LogOp) (hits : List String) :
    resInv (evaluateLogicalOperation E e op hits) := by
  simp only [evaluateLogicalOperation]
  repeat' split
  all_goals first
    | exact resInv_ok_none
    | exact resInv_ok_of hE (by assumption)
    | exact resInv_error_of_ne (resInv_err_of hE (by assumption))
    | exact resInv_error_of_ne (by (repeat' apply msg_ne_left) <;> decide)

/-- The invariant holds for every contains evaluation. -/
theorem resInv_contains {E : EvalFn} (hE : ∀ s, resInv (E s))
    (e : List Char) (hits : List String) :
    resInv (evaluateContainsFunction E e hits) := by
  simp only [evaluateContainsFunction]
  repeat' split
  all_goals first
    | exact resInv_ok_none
    | exact resInv_ok_of hE (by assumption)
    | exact resInv_error_of_ne (resInv_err_of hE (by assumption))
    | exact resInv_error_of_ne (by (repeat' apply msg_ne_left) <;> decide)

/-- The invariant holds for every startsWith/endsWith evaluation. -/
theorem resInv_stringfn {E : EvalFn} (hE : ∀ s, resInv (E s))
    (e : List Char) (fn : StrFn) (hits : List String) :
    resInv (evaluateStringFunction E e fn hits) := by
  simp only [evaluateStringFunction]
  repeat' split
  all_goals first
    | exact resInv_ok_none
    | exact resInv_ok_of hE (by assumption)
    | exact resInv_error_of_ne (resInv_err_of hE (by assumption))
    | exact resInv_error_of_ne (by cases fn <;> (repeat' apply msg_ne_left) <;> decide)

/-- The invariant holds for every format evaluation. -/
theorem resInv_format {E : EvalFn} (hE : ∀ s, resInv (E s))
    (e : List Char) (hits : List String) :
    resInv (evaluateFormatFunction E e hits) := by
  simp only [evaluateFormatFunction]
  repeat' split
  all_goals first
    | exact resInv_ok_none
    | exact resInv_ok_of hE (by assumption)
    | exact resInv_error_of_ne (resInv_err_of hE (by assumption))
    | exact resInv_error_of_ne (formatLoop_error_ne hE _ _ _ _ _ (by assumption))
    | exact resInv_error_of_ne (by (repeat' apply msg_ne_left) <;> decide)

/-- The invariant holds for every toJSON evaluation. -/
theorem resInv_tojson {E : EvalFn} (hE : ∀ s, resInv (E s))
    (e : List Char) (hits : List String) :
    resInv (evaluateToJSONFunction E e hits) := by
  simp only [evaluateToJSONFunction]
  repeat' split
  all_goals first
    | exact resInv_ok_none
    | exact resInv_ok_of hE (by assumption)
    | exact resInv_error_of_ne (resInv_err_of hE (by assumption))
    | exact resInv_error_of_ne (by (repeat' apply msg_ne_left) <;> decide)

/-- The invariant holds for every fromJSON evaluation. -/
theorem resInv_fromjson {E : EvalFn} (hE : ∀ s, resInv (E s))
    (e : List Char) (hits : List String) :
    resInv (evaluateFromJSONFunction E e hits) := by
  simp only [evaluateFromJSONFunction]
  repeat' split
  all_goals first
    | exact resInv_ok_none
    | exact resInv_ok_of hE (by assumption)
    | exact resInv_error_of_ne (resInv_err_of hE (by assumption))
    | exact resInv_error_of_ne (by (repeat' apply msg_ne_left) <;> decide)

/-- The invariant holds for every join evaluation. -/
theorem resInv_join {E : EvalFn} (hE : ∀ s, resInv (E s))
    (e : List Char) (hits : List String) :
    resInv (evaluateJoinFunction E e hits) := by
  simp only [evaluateJoinFunction]
  repeat' split
  all_goals first
    | exact resInv_ok_none
    | exact resInv_ok_of hE (by assumption)
    | exact resInv_error_of_ne (resInv_err_of hE (by assumption))
    | exact resInv_error_of_ne (by (repeat' apply msg_ne_left) <;> decide)

/-- The invariant holds for every plain property access. -/
theorem resInv_propaccess (ctx : EvaluationContext) (e : List Char)
    (hits : List String) :
    resInv (evaluatePropertyAccess ctx e hits) := by
  simp only [evaluatePropertyAccess]
  repeat' split
  all_goals first
    | exact resInv_ok_none
    | exact resInv_error_of_ne (propWalk_error_ne _ _ _ _ _ (by assumption))

/-- The invariant holds for every chained property access. -/
theorem resInv_chained {E : EvalFn} (hE : ∀ s, resInv (E s))
    (e : List Char) (hits : List String) :
    resInv (evaluateChainedPropertyAccess E e hits) := by
  simp only [evaluateChainedPropertyAccess]
  repeat' split
  all_goals first
    | exact hE e
    | exact resInv_ok_none
    | exact resInv_ok_of hE (by assumption)
    | exact resInv_error_of_ne (resInv_err_of hE (by assumption))
    | exact resInv_error_of_ne (chainWalk_error_ne _ _ _ _ _ (by assumption))

/-- The invariant passes through a two-way branch. -/
theorem resInv_ite {c : Prop} [Decidable c] {a b : Except String ExpressionResult}
    (ha : resInv a) (hb : resInv b) : resInv (if c then a else b) := by
  split
  · exact ha
  · exact hb

/-- The invariant holds for the negation branch's body. -/
theorem resInv_negation {E : EvalFn} (hE : ∀ s, resInv (E s)) (s : List Char) :
    resInv (match E s with
      | .error m => .error m
      | .ok innerResult =>
        .ok ⟨.bool (! isTruthy innerResult.value), "boolean",
          innerResult.contextHits, none⟩) := by
  split
  · exact resInv_error_of_ne (resInv_err_of hE (by assumption))
  · exact resInv_ok_none

/-- The invariant holds for every dispatch of `parseAndEvaluate`: a
    thrown message is nonempty and a returned result that carries an
    error has a null value, type "error" and no hits. -/
theorem resInv_parseAndEvaluate (ctx : EvaluationContext) :
    ∀ (fuel : Nat) (e : List Char), resInv (parseAndEvaluate ctx fuel e) := by
  intro fuel
  induction fuel with
  | zero => intro e; exact resInv_error_of_ne (by decide)
  | succ fuel ih =>
    intro e
    simp only [parseAndEvaluate]
    split
    · exact resInv_ok_none
    · refine resInv_ite (resInv_contains ih _ _) ?_
      refine resInv_ite (resInv_stringfn ih _ _ _) ?_
      refine resInv_ite (resInv_stringfn ih _ _ _) ?_
      refine resInv_ite (resInv_format ih _ _) ?_
      refine resInv_ite (resInv_tojson ih _ _) ?_
      refine resInv_ite (resInv_fromjson ih _ _) ?_
      refine resInv_ite (resInv_join ih _ _) ?_
      refine resInv_ite resInv_ok_hashfiles ?_
      refine resInv_ite (resInv_logical ih _ _ _) ?_
      refine resInv_ite (resInv_logical ih _ _ _) ?_
      refine resInv_ite (resInv_negation ih _) ?_
      refine resInv_ite (resInv_comparison ih _ _ _) ?_
      refine resInv_ite (resInv_comparison ih _ _ _) ?_
      refine resInv_ite (resInv_comparison ih _ _ _) ?_
      refine resInv_ite (resInv_comparison ih _ _ _) ?_
      refine resInv_ite (resInv_comparison ih _ _ _) ?_
      refine resInv_ite (resInv_comparison ih _ _ _) ?_
      refine resInv_ite (resInv_propaccess ctx _ _) ?_
      refine resInv_ite (resInv_chained ih _ _) ?_
      refine resInv_ite resInv_ok_none ?_
      refine resInv_ite resInv_ok_none ?_
      refine resInv_ite resInv_ok_none ?_
      refine resInv_ite resInv_ok_none ?_
      refine resInv_ite resInv_ok_none ?_
      exact resInv_error_of_ne (msg_ne_left (by decide))

/-- The inner attempt of `evaluateExpression`: the empty-check throw or
    the dispatched evaluation. -/
def evalAttempt (ctx : EvaluationContext) (fuel : Nat) (e : String) :
    Except String ExpressionResult :=
  if (stripWrapperAndTrim e.data).isEmpty = true then .error "Empty expression"
  else parseAndEvaluate ctx fuel (stripWrapperAndTrim e.data)

/-- `evaluateExpression` is the attempt with the catch clause applied. -/
theorem evaluateExpression_eq_attempt (ctx : EvaluationContext) (fuel : Nat)
    (e : String) :
    evaluateExpression ctx fuel e =
      (match evalAttempt ctx fuel e with
        | .ok r => (⟨r.value, r.type, r.contextHits, r.error, true⟩ : FinalResult)
        | .error m => ⟨.null, "error", [], some m, false⟩) := rfl

/-- The invariant holds for the attempt. -/
theorem resInv_evalAttempt (ctx : EvaluationContext) (fuel : Nat) (e : String) :
    resInv (evalAttempt ctx fuel e) :=
  resInv_ite (resInv_error_of_ne (by decide)) (resInv_parseAndEvaluate ctx fuel _)

/-- Claim C9: error propagation is fail-fast and the failed result is
    fully reset — whenever the returned result of `evaluateExpression`
    carries an error, its value is null and its contextHits is empty:
    every hit accumulated before the failure point has been discarded. -/
theorem c9_error_reset (ctx : EvaluationContext) (fuel : Nat) (e : String)
    (h : (evaluateExpression ctx fuel e).error.isSome = true) :
    (evaluateExpression ctx fuel e).value = .null
    ∧ (evaluateExpression ctx fuel e).contextHits = [] := by
  have hres := resInv_evalAttempt ctx fuel e
  rw [evaluateExpression_eq_attempt] at h ⊢
  revert h
  cases hE : evalAttempt ctx fuel e with
  | error m => intro h; exact ⟨rfl, rfl⟩
  | ok r =>
    intro h
    rw [hE] at hres
    rcases hres h with ⟨h1, _, h3⟩
    exact ⟨h1, h3⟩

/-- Claim C9 witness: the scenario github.nonexistent fails with its
    error populated, and its result is reset to null value and empty
    contextHits. -/
theorem c9_error_reset_witness :
    (evaluateExpression refCtx 50 "github.nonexistent").error.isSome = true
    ∧ ((evaluateExpression refCtx 50 "github.nonexistent").value = .null
      ∧ (evaluateExpression refCtx 50 "github.nonexistent").contextHits = []) :=
  ⟨rfl, c9_error_reset refCtx 50 "github.nonexistent" rfl⟩

/-- Claim C10: the public entry point is total by construction (it is a
    Lean function into `FinalResult`, with the JS engine's stack
    overflow modelled as the caught fuel-exhaustion message), and every
    internal failure is converted into a normally returned record with
    type "error", a null value, no hits, and a nonempty (descriptive)
    message string. -/
theorem c10_total_error_conversion (ctx : EvaluationContext) (fuel : Nat)
    (e : String) (h : (evaluateExpression ctx fuel e).success = false) :
    (evaluateExpression ctx fuel e).type = "error"
    ∧ (evaluateExpression ctx fuel e).value = .null
    ∧ (evaluateExpression ctx fuel e).contextHits = []
    ∧ ∃ m : String, (evaluateExpression ctx fuel e).error = some m ∧ m ≠ "" := by
  have hres := resInv_evalAttempt ctx fuel e
  rw [evaluateExpression_eq_attempt] at h ⊢
  revert h
  cases hE : evalAttempt ctx fuel e with
  | error m =>
    intro _
    rw [hE] at hres
    exact ⟨rfl, rfl, rfl, m, rfl, hres⟩
  | ok r => intro h; exact absurd h (by simp)

/-- Claim C10 witness: the empty expression fails, and the failure is a
    normally returned record with type "error", null value and the
    nonempty message. -/
theorem c10_total_error_conversion_witness :
    (evaluateExpression refCtx 50 "").success = false
    ∧ ((evaluateExpression refCtx 50 "").type = "error"
      ∧ (evaluateExpression refCtx 50 "").value = .null
      ∧ (evaluateExpression refCtx 50 "").contextHits = []
      ∧ ∃ m : String, (evaluateExpression refCtx 50 "").error = some m ∧ m ≠ "") :=
  ⟨rfl, c10_total_error_conversion refCtx 50 "" rfl⟩

/-! ### JSON round-trip (claim C5) -/

/-- Key list without duplicates. -/
def nodupKeysB : List String → Bool
  | [] => true
  | k :: ks => decide (k ∉ ks) && nodupKeysB ks

mutual

/-- JSON-representable values: no undefined, numbers finite and in
    canonical decimal form (the form every evaluator-built number has),
    object keys distinct. -/
def jsonReprB : Value → Bool
  | .null => true
  | .undef => false
  | .bool _ => true
  | .num (.fin d) => decIsNorm d
  | .num _ => false
  | .str _ => true
  | .arr es => jsonReprListB es
  | .obj fs => nodupKeysB (fs.map Prod.fst) && jsonReprFieldsB fs

/-- Elementwise representability. -/
def jsonReprListB : List Value → Bool
  | [] => true
  | v :: vs => jsonReprB v && jsonReprListB vs

/-- Fieldwise representability. -/
def jsonReprFieldsB : List (String × Value) → Bool
  | [] => true
  | (_, v) :: fs => jsonReprB v && jsonReprFieldsB fs

end

mutual

/-- Fuel sufficient for `jsonParseVal` on this value's rendering. -/
def needVal : Value → Nat
  | .arr es => 1 + needElems es
  | .obj fs => 1 + needMems fs
  | _ => 1

/-- Fuel sufficient for `jsonParseElems` on these elements' rendering. -/
def needElems : List Value → Nat
  | [] => 0
  | v :: vs => 1 + max (needVal v) (needElems vs)

/-- Fuel sufficient for `jsonParseMems` on these members' rendering. -/
def needMems : List (String × Value) → Nat
  | [] => 0
  | (_, v) :: fs => 1 + max (needVal v) (needMems fs)

end

/-- A remainder that cannot extend a rendered value: empty or starting
    with one of the three delimiters a rendering ever places after a
    nested value. -/
def jsonDelimB : List Char → Bool
  | [] => true
  | c :: _ => c = ',' || c = ']' || c = chRB

/-- Every value needs at least one unit of fuel. -/
theorem needVal_pos (v : Value) : 1 ≤ needVal v := by
  cases v <;> simp [needVal]

/-! #### Digit lemmas -/

/-- The digit character only depends on the residue. -/
theorem digitCh_mod (n : Nat) : digitCh n = digitCh (n % 10) := by
  unfold digitCh
  congr 1
  omega

/-- The digit character of `k < 10` is a digit, carries `48 + k`, and is
    zero exactly for `k = 0`. -/
theorem digitCh_spec (k : Nat) (h : k < 10) :
    isDigitCh (digitCh k) = true ∧ (digitCh k).toNat = 48 + k ∧ digitCh k ≠ '-'
      ∧ ((digitCh k = '0') ↔ k = 0) := by
  match k, h with
  | 0, _ => exact ⟨by decide, by decide, by decide, by decide⟩
  | 1, _ => exact ⟨by decide, by decide, by decide, by decide⟩
  | 2, _ => exact ⟨by decide, by decide, by decide, by decide⟩
  | 3, _ => exact ⟨by decide, by decide, by decide, by decide⟩
  | 4, _ => exact ⟨by decide, by decide, by decide, by decide⟩
  | 5, _ => exact ⟨by decide, by decide, by decide, by decide⟩
  | 6, _ => exact ⟨by decide, by decide, by decide, by decide⟩
  | 7, _ => exact ⟨by decide, by decide, by decide, by decide⟩
  | 8, _ => exact ⟨by decide, by decide, by decide, by decide⟩
  | 9, _ => exact ⟨by decide, by decide, by decide, by decide⟩

/-- `digitCh_spec` for an arbitrary argument, through the residue. -/
theorem digitCh_spec' (n : Nat) :
    isDigitCh (digitCh n) = true ∧ (digitCh n).toNat = 48 + n % 10
      ∧ digitCh n ≠ '-' ∧ ((digitCh n = '0') ↔ n % 10 = 0) := by
  rw [digitCh_mod]
  exact digitCh_spec (n % 10) (Nat.mod_lt _ (by omega))

/-- `digitsVal` of a single character. -/
theorem digitsVal_single (c : Char) : digitsVal [c] = c.toNat - 48 := by
  simp [digitsVal]

/-- The accumulator of `natDigitsGo` rides along on the right. -/
theorem natDigitsGo_append (fuel : Nat) :
    ∀ (n : Nat) (acc : List Char),
      natDigitsGo fuel n acc = natDigitsGo fuel n [] ++ acc := by
  induction fuel with
  | zero => intro n acc; simp [natDigitsGo]
  | succ fuel ih =>
    intro n acc
    by_cases h : n < 10
    · simp [natDigitsGo, h]
    · rw [natDigitsGo, natDigitsGo, if_neg h, if_neg h, ih (n / 10), ih (n / 10) [_]]
      simp

/-- Digit runs are never empty. -/
theorem natDigitsGo_ne_nil (fuel n : Nat) : natDigitsGo fuel n [] ≠ [] := by
  cases fuel with
  | zero => simp [natDigitsGo]
  | succ fuel =>
    rw [natDigitsGo]
    split
    · simp
    · rw [natDigitsGo_append]
      simp

/-- Every produced character is a digit. -/
theorem natDigitsGo_digits (fuel : Nat) :
    ∀ n, ∀ c ∈ natDigitsGo fuel n [], isDigitCh c = true := by
  induction fuel with
  | zero =>
    intro n c hc
    simp only [natDigitsGo, List.mem_singleton] at hc
    subst hc
    exact (digitCh_spec' n).1
  | succ fuel ih =>
    intro n c hc
    rw [natDigitsGo] at hc
    split at hc
    · simp only [List.mem_singleton] at hc
      subst hc
      exact (digitCh_spec' n).1
    · rw [natDigitsGo_append, List.mem_append] at hc
      rcases hc with hc | hc
      · exact ih (n / 10) c hc
      · simp only [List.mem_singleton] at hc
        subst hc
        exact (digitCh_spec' (n % 10)).1

/-- Shifting lemma for `digitsVal`'s fold. -/
theorem digitsVal_shift (ds : List Char) :
    ∀ init : Nat,
      ds.foldl (fun acc c => acc * 10 + (c.toNat - 48)) init =
        init * 10 ^ ds.length + digitsVal ds := by
  induction ds with
  | nil => intro init; simp [digitsVal]
  | cons c t ih =>
    intro init
    simp only [digitsVal, List.foldl_cons, List.length_cons]
    rw [ih (init * 10 + (c.toNat - 48)), ih (0 * 10 + (c.toNat - 48))]
    ring

/-- `digitsVal` over an append. -/
theorem digitsVal_append (a b : List Char) :
    digitsVal (a ++ b) = digitsVal a * 10 ^ b.length + digitsVal b := by
  simp only [digitsVal, List.foldl_append]
  rw [digitsVal_shift b (List.foldl (fun acc c => acc * 10 + (c.toNat - 48)) 0 a)]
  rfl

/-- With enough fuel the digit run of `n` evaluates back to `n`. -/
theorem natDigitsGo_val : ∀ (fuel n : Nat), n ≤ fuel →
    digitsVal (natDigitsGo fuel n []) = n := by
  intro fuel
  induction fuel with
  | zero =>
    intro n hn
    interval_cases n
    decide
  | succ fuel ih =>
    intro n hn
    rw [natDigitsGo]
    by_cases h : n < 10
    · rw [if_pos h]
      show digitsVal [digitCh n] = n
      rw [digitsVal_single]
      have h1 := (digitCh_spec' n).2.1
      omega
    · rw [if_neg h, natDigitsGo_append, digitsVal_append]
      rw [ih (n / 10) (by omega), digitsVal_single]
      have h1 := (digitCh_spec' (n % 10)).2.1
      simp only [List.length_singleton, pow_one]
      omega

/-- `digitsVal (natDigits n) = n`. -/
theorem digitsVal_natDigits (n : Nat) : digitsVal (natDigits n) = n :=
  natDigitsGo_val n n (Nat.le_refl n)

/-- The leading digit of a positive number is not the zero character. -/
theorem natDigitsGo_head_ne_zero : ∀ (fuel n : Nat), n ≤ fuel → 1 ≤ n →
    ∀ c t, natDigitsGo fuel n [] = c :: t → c ≠ '0' := by
  intro fuel
  induction fuel with
  | zero => intro n hn h1; omega
  | succ fuel ih =>
    intro n hn h1 c t hct
    rw [natDigitsGo] at hct
    split at hct
    · rename_i h
      rw [List.cons.injEq] at hct
      rw [← hct.1]
      intro hz
      have h0 := ((digitCh_spec' n).2.2.2).mp hz
      omega
    · rename_i h
      rw [natDigitsGo_append] at hct
      rcases hd : natDigitsGo fuel (n / 10) [] with _ | ⟨c0, t0⟩
      · exact absurd hd (natDigitsGo_ne_nil fuel (n / 10))
      · rw [hd] at hct
        simp only [List.cons_append, List.cons.injEq] at hct
        rw [← hct.1]
        exact ih (n / 10) (by omega) (by omega) c0 t0 hd

/-! #### Digit-run and decimal lemmas -/

/-- Does the list not start with a digit? -/
def notDigitHeadB : List Char → Bool
  | [] => true
  | c :: _ => !isDigitCh c

/-- A digit differs from any non-digit character. -/
theorem digit_ne {c k : Char} (h : isDigitCh c = true) (hk : isDigitCh k = false) :
    c ≠ k := by
  intro he
  rw [he, hk] at h
  exact Bool.noConfusion h

/-- A delimiter head is not a digit. -/
theorem jsonDelimB_notDigit {rest : List Char} (h : jsonDelimB rest = true) :
    notDigitHeadB rest = true := by
  cases rest with
  | nil => rfl
  | cons c t =>
    simp only [jsonDelimB, Bool.or_eq_true, decide_eq_true_eq] at h
    rcases h with (h | h) | h <;> subst h <;> rfl

/-- A digit-free head stops the digit run. -/
theorem takeDigitRun_stop {cs : List Char} (h : notDigitHeadB cs = true) :
    takeDigitRun cs = ([], cs) := by
  cases cs with
  | nil => rfl
  | cons c t =>
    simp only [notDigitHeadB, Bool.not_eq_true'] at h
    simp [takeDigitRun, h]

/-- The digit run consumes exactly a leading digit block. -/
theorem takeDigitRun_run (ds : List Char) (rest : List Char)
    (hds : ∀ c ∈ ds, isDigitCh c = true) (hrest : notDigitHeadB rest = true) :
    takeDigitRun (ds ++ rest) = (ds, rest) := by
  induction ds with
  | nil => simpa using takeDigitRun_stop hrest
  | cons c t ih =>
    have hc : isDigitCh c = true := hds c (by simp)
    have ht := ih (fun x hx => hds x (by simp [hx]))
    simp [takeDigitRun, hc, ht]

/-- `digitsVal` ignores leading zero characters. -/
theorem digitsVal_zeros (z : Nat) (ds : List Char) :
    digitsVal (List.replicate z '0' ++ ds) = digitsVal ds := by
  induction z with
  | zero => simp
  | succ z ih =>
    rw [List.replicate_succ]
    show digitsVal ('0' :: (List.replicate z '0' ++ ds)) = digitsVal ds
    rw [← ih]
    rfl

/-- `tenPow` is the integer power of ten. -/
theorem tenPow_eq (n : Nat) : tenPow n = (10 : Int) ^ n := by
  induction n with
  | zero => rfl
  | succ n ih => rw [tenPow, ih, pow_succ]; ring

/-- A canonical decimal is already normal, so `mkDec` keeps it. -/
theorem mkDec_norm {m : Int} {e : Nat} (h : decIsNorm ⟨m, e⟩ = true) :
    mkDec m e = ⟨m, e⟩ := by
  cases e with
  | zero => rfl
  | succ e =>
    simp only [decIsNorm, Bool.or_eq_true, decide_eq_true_eq, Bool.not_eq_true'] at h
    rcases h with h | h
    · exact absurd h (by omega)
    · simp only [mkDec, decNorm]
      rw [if_neg]
      simpa using h

/-- `decOfParts` with no exponent, in closed form. -/
theorem decOfParts_zero (neg : Bool) (I F fl : Nat) :
    decOfParts neg I F fl 0 =
      mkDec (if neg then -(Int.ofNat (I * 10 ^ fl + F)) else Int.ofNat (I * 10 ^ fl + F))
        fl := by
  simp only [decOfParts, tenPow_eq]
  rw [if_pos (by omega)]
  have h1 : ((0 : Int)).toNat = 0 := rfl
  rw [h1, pow_zero, mul_one]
  congr 1
  cases neg <;> simp

/-- The digit characters of `n`, restated for `natDigits`. -/
theorem natDigits_digits (n : Nat) : ∀ c ∈ natDigits n, isDigitCh c = true :=
  natDigitsGo_digits n n

/-- `natDigits` is never empty. -/
theorem natDigits_ne_nil (n : Nat) : natDigits n ≠ [] :=
  natDigitsGo_ne_nil n n

/-- Positive numbers print without a leading zero. -/
theorem natDigits_head_ne_zero (n : Nat) (h1 : 1 ≤ n) (c : Char) (t : List Char)
    (he : natDigits n = c :: t) : c ≠ '0' :=
  natDigitsGo_head_ne_zero n n (Nat.le_refl n) h1 c t he

/-- The digit value of `natDigits`, restated. -/
theorem natDigits_val (n : Nat) : digitsVal (natDigits n) = n :=
  digitsVal_natDigits n

/-- Parsing a JSON integer numeral: sign, digits, then a delimiter. -/
theorem jsonParseNum_int (neg : Bool) (ids rest : List Char)
    (hi : ∀ c ∈ ids, isDigitCh c = true) (hine : ids ≠ [])
    (hlead : ∀ t, ids = '0' :: t → t = [])
    (hrest : jsonDelimB rest = true) :
    jsonParseNum ((if neg then ['-'] else []) ++ ids ++ rest) =
      some (decOfParts neg (digitsVal ids) 0 0 0, rest) := by
  obtain ⟨c, it, rfl⟩ := List.exists_cons_of_ne_nil hine
  have hc : isDigitCh c = true := hi c (by simp)
  have hcm : c ≠ '-' := by
    intro h
    rw [h] at hc
    exact Bool.noConfusion hc
  have hrun : takeDigitRun (c :: (it ++ rest)) = (c :: it, rest) := by
    simpa using takeDigitRun_run (c :: it) rest hi (jsonDelimB_notDigit hrest)
  have hrest4 : rest = [] ∨ ∃ r, rest = ',' :: r ∨ rest = ']' :: r ∨ rest = chRB :: r := by
    cases rest with
    | nil => exact Or.inl rfl
    | cons x r =>
      simp only [jsonDelimB, Bool.or_eq_true, decide_eq_true_eq] at hrest
      rcases hrest with (h | h) | h <;> exact Or.inr ⟨r, by simp [h]⟩
  by_cases hc0 : c = '0'
  · subst hc0
    have hit : it = [] := hlead it rfl
    subst hit
    rcases hrest4 with rfl | ⟨r, rfl | rfl | rfl⟩ <;> cases neg <;>
      (try simp only [List.append_nil, List.nil_append] at hrun) <;>
      simp +decide [jsonParseNum, hrun, digitsVal]
  · rcases hrest4 with rfl | ⟨r, rfl | rfl | rfl⟩ <;> cases neg <;>
      (try simp only [List.append_nil, List.nil_append] at hrun) <;>
      simp +decide [jsonParseNum, hc, hcm, hc0, hrun, digitsVal]

/-- Parsing a JSON decimal numeral: sign, integer digits, point,
    fraction digits, then a delimiter. -/
theorem jsonParseNum_point (neg : Bool) (ids fds rest : List Char)
    (hi : ∀ c ∈ ids, isDigitCh c = true) (hine : ids ≠ [])
    (hlead : ∀ t, ids = '0' :: t → t = [])
    (hf : ∀ c ∈ fds, isDigitCh c = true) (hfne : fds ≠ [])
    (hrest : jsonDelimB rest = true) :
    jsonParseNum ((if neg then ['-'] else []) ++ ids ++ '.' :: (fds ++ rest)) =
      some (decOfParts neg (digitsVal ids) (digitsVal fds) fds.length 0, rest) := by
  obtain ⟨c, it, rfl⟩ := List.exists_cons_of_ne_nil hine
  have hc : isDigitCh c = true := hi c (by simp)
  have hcm : c ≠ '-' := by
    intro h
    rw [h] at hc
    exact Bool.noConfusion hc
  have hfe : fds.isEmpty = false := by
    cases fds with
    | nil => exact absurd rfl hfne
    | cons a b => rfl
  have hrun1 : takeDigitRun (c :: (it ++ '.' :: (fds ++ rest))) =
      (c :: it, '.' :: (fds ++ rest)) := by
    simpa using takeDigitRun_run (c :: it) ('.' :: (fds ++ rest)) hi rfl
  have hrun2 : takeDigitRun (fds ++ rest) = (fds, rest) :=
    takeDigitRun_run fds rest hf (jsonDelimB_notDigit hrest)
  have hrest4 : rest = [] ∨ ∃ r, rest = ',' :: r ∨ rest = ']' :: r ∨ rest = chRB :: r := by
    cases rest with
    | nil => exact Or.inl rfl
    | cons x r =>
      simp only [jsonDelimB, Bool.or_eq_true, decide_eq_true_eq] at hrest
      rcases hrest with (h | h) | h <;> exact Or.inr ⟨r, by simp [h]⟩
  by_cases hc0 : c = '0'
  · subst hc0
    have hit : it = [] := hlead it rfl
    subst hit
    rcases hrest4 with rfl | ⟨r, rfl | rfl | rfl⟩ <;> cases neg <;>
      (try simp only [List.append_nil, List.nil_append] at hrun1 hrun2) <;>
      simp +decide [jsonParseNum, hrun1, hrun2, hfe, digitsVal]
  · rcases hrest4 with rfl | ⟨r, rfl | rfl | rfl⟩ <;> cases neg <;>
      (try simp only [List.append_nil, List.nil_append] at hrun1 hrun2) <;>
      simp +decide [jsonParseNum, hc, hcm, hc0, hrun1, hrun2, hfe, digitsVal]

/-- A leading zero digit run is only the single digit of zero itself. -/
theorem natDigits_lead (a : Nat) : ∀ t, natDigits a = '0' :: t → t = [] := by
  intro t ht
  rcases Nat.eq_zero_or_pos a with rfl | ha
  · have h0 : natDigits 0 = ['0'] := rfl
    rw [h0] at ht
    exact ((List.cons.inj ht.symm).2)
  · exact absurd rfl (natDigits_head_ne_zero a ha '0' t ht)

/-- Assembling a parsed numeral with value the mantissa's absolute value
    recovers a canonical negative decimal. -/
theorem decOfParts_mant_neg (m : Int) (k : Nat)
    (hnorm : decIsNorm ⟨m, k⟩ = true) (hm : m < 0) (I F : Nat)
    (hval : I * 10 ^ k + F = m.natAbs) :
    decOfParts true I F k 0 = ⟨m, k⟩ := by
  rw [decOfParts_zero, if_pos rfl, hval]
  have hmm : -(Int.ofNat m.natAbs) = m := by
    simp only [Int.ofNat_eq_natCast]
    omega
  rw [hmm]
  exact mkDec_norm hnorm

/-- Assembling a parsed numeral with value the mantissa's absolute value
    recovers a canonical nonnegative decimal. -/
theorem decOfParts_mant_nonneg (m : Int) (k : Nat)
    (hnorm : decIsNorm ⟨m, k⟩ = true) (hm : 0 ≤ m) (I F : Nat)
    (hval : I * 10 ^ k + F = m.natAbs) :
    decOfParts false I F k 0 = ⟨m, k⟩ := by
  rw [decOfParts_zero]
  have hff : (if (false : Bool) then -(Int.ofNat (I * 10 ^ k + F))
      else Int.ofNat (I * 10 ^ k + F)) = Int.ofNat (I * 10 ^ k + F) := rfl
  rw [hff, hval]
  have hmm : Int.ofNat m.natAbs = m := by
    simp only [Int.ofNat_eq_natCast]
    omega
  rw [hmm]
  exact mkDec_norm hnorm

/-- Parsing the JS decimal rendering of a canonical decimal recovers it
    exactly, leaving any delimiter-headed remainder. -/
theorem jsonParseNum_finToChars (d : Dec) (hnorm : decIsNorm d = true)
    (rest : List Char) (hrest : jsonDelimB rest = true) :
    jsonParseNum (finToChars d ++ rest) = some (d, rest) := by
  obtain ⟨m, k⟩ := d
  have hds := natDigits_digits m.natAbs
  have hdnn := natDigits_ne_nil m.natAbs
  have hdlead := natDigits_lead m.natAbs
  cases k with
  | zero =>
    have hshape : finToChars ⟨m, 0⟩ =
        (if decide (m < 0) then ['-'] else []) ++ natDigits m.natAbs := by
      simp only [finToChars, decDigitsWithPoint, if_pos rfl]
      by_cases hm : m < 0 <;> simp [hm]
    rw [hshape,
      jsonParseNum_int (decide (m < 0)) (natDigits m.natAbs) rest hds hdnn hdlead hrest,
      natDigits_val]
    by_cases hm : m < 0
    · rw [decide_eq_true hm, decOfParts_mant_neg m 0 hnorm hm _ 0 (by simp)]
    · rw [decide_eq_false hm, decOfParts_mant_nonneg m 0 hnorm (by omega) _ 0 (by simp)]
  | succ e =>
    have hm10 : ¬ m % 10 = 0 := by
      simp only [decIsNorm, Bool.or_eq_true, decide_eq_true_eq, Bool.not_eq_true'] at hnorm
      rcases hnorm with h | h
      · exact absurd h (by omega)
      · simpa using h
    have hmne : m ≠ 0 := fun h => hm10 (by rw [h]; rfl)
    have hapos : 1 ≤ m.natAbs := by omega
    rcases le_or_lt (natDigits m.natAbs).length (e + 1) with hlen | hlen
    · -- small mantissa: 0.00…digits form
      have hdd : decDigitsWithPoint m.natAbs (e + 1) = '0' :: '.' ::
          (List.replicate (e + 1 - (natDigits m.natAbs).length) '0' ++ natDigits m.natAbs) := by
        simp only [decDigitsWithPoint]
        rw [if_neg (by omega), if_pos hlen]
      have hshape : finToChars ⟨m, e + 1⟩ =
          (if decide (m < 0) then ['-'] else []) ++ ['0'] ++ '.' ::
            (List.replicate (e + 1 - (natDigits m.natAbs).length) '0' ++ natDigits m.natAbs) := by
        simp only [finToChars, hdd]
        by_cases hm : m < 0 <;> simp [hm]
      rw [hshape]
      have hfds : ∀ c ∈ List.replicate (e + 1 - (natDigits m.natAbs).length) '0' ++
          natDigits m.natAbs, isDigitCh c = true := by
        intro c hc
        rcases List.mem_append.mp hc with h | h
        · rw [List.eq_of_mem_replicate h]; decide
        · exact hds c h
      have hfne : List.replicate (e + 1 - (natDigits m.natAbs).length) '0' ++
          natDigits m.natAbs ≠ [] := by
        simp [hdnn]
      have happ : ((if decide (m < 0) then ['-'] else []) ++ ['0'] ++ '.' ::
            (List.replicate (e + 1 - (natDigits m.natAbs).length) '0' ++ natDigits m.natAbs)) ++ rest
          = (if decide (m < 0) then ['-'] else []) ++ ['0'] ++ '.' ::
            ((List.replicate (e + 1 - (natDigits m.natAbs).length) '0' ++ natDigits m.natAbs) ++ rest) := by
        simp
      rw [happ, jsonParseNum_point (decide (m < 0)) ['0'] _ rest (by decide) (by decide)
        (fun t ht => (List.cons.inj ht.symm).2) hfds hfne hrest]
      rw [digitsVal_zeros, natDigits_val]
      have hdv0 : digitsVal ['0'] = 0 := by decide
      have hlen2 : (List.replicate (e + 1 - (natDigits m.natAbs).length) '0' ++
          natDigits m.natAbs).length = e + 1 := by
        simp only [List.length_append, List.length_replicate]
        omega
      rw [hdv0, hlen2]
      by_cases hm : m < 0
      · rw [decide_eq_true hm, decOfParts_mant_neg m (e + 1) hnorm hm 0 _ (by simp)]
      · rw [decide_eq_false hm, decOfParts_mant_nonneg m (e + 1) hnorm (by omega) 0 _ (by simp)]
    · -- large mantissa: digits split around the point
      set ds := natDigits m.natAbs with hdsdef
      set p := ds.length - (e + 1) with hpdef
      have hppos : 1 ≤ p := by omega
      have hdd : decDigitsWithPoint m.natAbs (e + 1) = ds.take p ++ '.' :: ds.drop p := by
        simp only [decDigitsWithPoint]
        rw [← hdsdef, if_neg (by omega : ¬ (e + 1 = 0)), if_neg (by omega), ← hpdef]
      have hshape : finToChars ⟨m, e + 1⟩ =
          (if decide (m < 0) then ['-'] else []) ++ ds.take p ++ '.' :: ds.drop p := by
        simp only [finToChars, hdd]
        by_cases hm : m < 0 <;> simp [hm]
      rw [hshape]
      have htne : ds.take p ≠ [] := by
        have : (ds.take p).length = p := by
          rw [List.length_take]
          omega
        intro h
        rw [h] at this
        simp at this
        omega
      have htlead : ∀ t, ds.take p = '0' :: t → t = [] := by
        intro t ht
        obtain ⟨c0, dt, hds0⟩ := List.exists_cons_of_ne_nil (hdnn)
        have hc0 : c0 ≠ '0' := natDigits_head_ne_zero m.natAbs hapos c0 dt hds0
        obtain ⟨p1, hp1⟩ : ∃ p1, p = p1 + 1 := ⟨p - 1, by omega⟩
        rw [hp1, hds0] at ht
        rw [List.take_succ_cons] at ht
        exact absurd (List.cons.inj ht).1 hc0
      have hdne : ds.drop p ≠ [] := by
        intro h
        have := congrArg List.length h
        rw [List.length_drop] at this
        simp at this
        omega
      have happ : ((if decide (m < 0) then ['-'] else []) ++ ds.take p ++ '.' :: ds.drop p) ++ rest
          = (if decide (m < 0) then ['-'] else []) ++ ds.take p ++ '.' :: (ds.drop p ++ rest) := by
        simp
      rw [happ, jsonParseNum_point (decide (m < 0)) (ds.take p) (ds.drop p) rest
        (fun c hc => hds c (List.take_subset p ds hc)) htne htlead
        (fun c hc => hds c (List.drop_subset p ds hc)) hdne hrest]
      have hdl : (ds.drop p).length = e + 1 := by
        rw [List.length_drop]
        omega
      have hval : digitsVal (ds.take p) * 10 ^ (e + 1) + digitsVal (ds.drop p) = m.natAbs := by
        have := digitsVal_append (ds.take p) (ds.drop p)
        rw [List.take_append_drop, hdl] at this
        rw [← this, hdsdef, natDigits_val]
      rw [hdl]
      by_cases hm : m < 0
      · rw [decide_eq_true hm, decOfParts_mant_neg m (e + 1) hnorm hm _ _ hval]
      · rw [decide_eq_false hm, decOfParts_mant_nonneg m (e + 1) hnorm (by omega) _ _ hval]

/-! #### String escape round-trip -/

/-- Hexadecimal digit characters decode to their value. -/
theorem hexDigitVal_hexCh (d : Nat) (h : d < 16) :
    hexDigitVal (hexCh d) = some d := by
  interval_cases d <;> decide

/-- JSON whitespace skipping is the identity on non-whitespace heads. -/
theorem jsonSkipWs_cons (c : Char) (l : List Char) (h : isWsCh c = false) :
    jsonSkipWs (c :: l) = c :: l := by
  simp only [isWsCh, Bool.or_eq_false_iff, decide_eq_false_iff_not] at h
  simp [jsonSkipWs, h.1.1.1.1.1, h.1.1.1.1.2, h.1.1.1.2, h.1.1.2]

/-- Every escaped character occupies at least one character. -/
theorem jsonEscapeCh_len_pos (c : Char) : 1 ≤ (jsonEscapeCh c).length := by
  unfold jsonEscapeCh
  repeat' split
  all_goals simp

/-- Parsing an escaped string body up to the closing quote recovers the
    original characters, with one more unit of fuel than the escaped
    length. -/
theorem jsonParseStrAux_escape (l : List Char) : ∀ (fuel : Nat) (acc r : List Char),
    (jsonEscapeList l).length + 1 ≤ fuel →
    jsonParseStrAux fuel acc (jsonEscapeList l ++ (chDQ :: r)) =
      some (String.mk (acc.reverse ++ l), r) := by
  induction l with
  | nil =>
    intro fuel acc r hfuel
    obtain ⟨f, rfl⟩ : ∃ f, fuel = f + 1 := ⟨fuel - 1, by omega⟩
    simp [jsonEscapeList, jsonParseStrAux]
  | cons c cs ih =>
    intro fuel acc r hfuel
    have hcpos := jsonEscapeCh_len_pos c
    simp only [jsonEscapeList, List.length_append] at hfuel
    obtain ⟨f, rfl⟩ : ∃ f, fuel = f + 1 := ⟨fuel - 1, by omega⟩
    have hf2 : (jsonEscapeList cs).length + 1 ≤ f := by omega
    simp only [jsonEscapeList, jsonEscapeCh]
    by_cases h1 : c = chDQ
    · subst h1
      simp +decide [jsonParseStrAux, jsonUnescapeCh, ih f (chDQ :: acc) r hf2]
    by_cases h2 : c = chBS
    · subst h2
      simp +decide [h1, jsonParseStrAux, jsonUnescapeCh, ih f (chBS :: acc) r hf2]
    by_cases h3 : c = '\n'
    · subst h3
      simp +decide [h1, h2, jsonParseStrAux, jsonUnescapeCh, ih f ('\n' :: acc) r hf2]
    by_cases h4 : c = '\r'
    · subst h4
      simp +decide [h1, h2, h3, jsonParseStrAux, jsonUnescapeCh, ih f ('\r' :: acc) r hf2]
    by_cases h5 : c = '\t'
    · subst h5
      simp +decide [h1, h2, h3, h4, jsonParseStrAux, jsonUnescapeCh,
        ih f ('\t' :: acc) r hf2]
    by_cases h6 : c = Char.ofNat 8
    · subst h6
      simp +decide [h1, h2, h3, h4, h5, jsonParseStrAux, jsonUnescapeCh,
        ih f (Char.ofNat 8 :: acc) r hf2]
    by_cases h7 : c = Char.ofNat 12
    · subst h7
      simp +decide [h1, h2, h3, h4, h5, h6, jsonParseStrAux, jsonUnescapeCh,
        ih f (Char.ofNat 12 :: acc) r hf2]
    by_cases h8 : c.toNat < 32
    · have h16a : c.toNat / 16 < 16 := by omega
      have h16b : c.toNat % 16 < 16 := by omega
      have hq : hexQuad '0' '0' (hexCh (c.toNat / 16)) (hexCh (c.toNat % 16)) =
          some c.toNat := by
        simp only [hexQuad, hexDigitVal_hexCh _ h16a, hexDigitVal_hexCh _ h16b]
        have h00 : hexDigitVal '0' = some 0 := by decide
        simp [h00]
        omega
      have hns : ¬ (55296 ≤ c.toNat ∧ c.toNat < 56320) := by omega
      simp +decide [h1, h2, h3, h4, h5, h6, h7, h8, jsonParseStrAux, hq, hns,
        Char.ofNat_toNat, ih f (c :: acc) r hf2]
    · have h32 : ¬ c.toNat < 32 := h8
      simp +decide [h1, h2, h3, h4, h5, h6, h7, h32, jsonParseStrAux,
        ih f (c :: acc) r hf2]

/-! #### Dispatch facts about rendered heads -/

/-- A digit character is one of the ten digits. -/
theorem digit_enum (c : Char) (h : isDigitCh c = true) :
    c = '0' ∨ c = '1' ∨ c = '2' ∨ c = '3' ∨ c = '4' ∨ c = '5' ∨ c = '6' ∨ c = '7'
      ∨ c = '8' ∨ c = '9' := by
  simp only [isDigitCh, Bool.and_eq_true, decide_eq_true_eq] at h
  obtain ⟨h1, h2⟩ := h
  have he := Char.ofNat_toNat c
  interval_cases hv : c.toNat <;> (subst he; decide)

/-- A parser step on a numeral head defers to the number parser. -/
theorem jsonParseVal_num_some (fuel : Nat) (c : Char) (r : List Char)
    (hc : c = '-' ∨ isDigitCh c = true) (q : Dec) (r2 : List Char)
    (hq : jsonParseNum (c :: r) = some (q, r2)) :
    jsonParseVal (fuel + 1) (c :: r) = some (.num (.fin q), r2) := by
  rcases hc with rfl | hd
  · simp +decide [jsonParseVal, jsonSkipWs, hq]
  · rcases digit_enum c hd with rfl | rfl | rfl | rfl | rfl | rfl | rfl | rfl | rfl | rfl <;>
      simp +decide [jsonParseVal, jsonSkipWs, hq]

/-- The rendering of a finite number starts with a minus sign or digit. -/
theorem finToChars_head (d : Dec) :
    ∃ c t, finToChars d = c :: t ∧ (c = '-' ∨ isDigitCh c = true) := by
  obtain ⟨m, k⟩ := d
  by_cases hm : m < 0
  · exact ⟨'-', decDigitsWithPoint m.natAbs k, by simp [finToChars, hm], Or.inl rfl⟩
  · obtain ⟨c0, dt, hds⟩ := List.exists_cons_of_ne_nil (natDigits_ne_nil m.natAbs)
    have hc0 : isDigitCh c0 = true := natDigits_digits m.natAbs c0 (by rw [hds]; simp)
    have hsgn : finToChars ⟨m, k⟩ = decDigitsWithPoint m.natAbs k := by
      simp [finToChars, hm]
    cases k with
    | zero =>
      refine ⟨c0, dt, ?_, Or.inr hc0⟩
      rw [hsgn]
      simpa [decDigitsWithPoint] using hds
    | succ e =>
      rcases le_or_lt (natDigits m.natAbs).length (e + 1) with hlen | hlen
      · have hdd : finToChars ⟨m, e + 1⟩ = '0' :: ('.' ::
            (List.replicate (e + 1 - (natDigits m.natAbs).length) '0' ++
              natDigits m.natAbs)) := by
          rw [hsgn]
          simp only [decDigitsWithPoint]
          rw [if_neg (by omega), if_pos hlen]
        exact ⟨_, _, hdd, Or.inr (by decide)⟩
      · obtain ⟨p1, hp1⟩ : ∃ p1, (natDigits m.natAbs).length - (e + 1) = p1 + 1 :=
          ⟨(natDigits m.natAbs).length - (e + 1) - 1, by omega⟩
        have hdd : finToChars ⟨m, e + 1⟩ = c0 :: (dt.take p1 ++ '.' ::
            (c0 :: dt).drop (p1 + 1)) := by
          rw [hsgn]
          simp only [decDigitsWithPoint]
          rw [if_neg (by omega), if_neg (by omega)]
          rw [hp1, hds, List.take_succ_cons, List.cons_append]
        exact ⟨_, _, hdd, Or.inr hc0⟩

/-- A digit or minus sign is not whitespace and no JSON delimiter. -/
theorem numHead_facts (c : Char) (hc : c = '-' ∨ isDigitCh c = true) :
    isWsCh c = false ∧ c ≠ ']' := by
  rcases hc with rfl | hd
  · exact ⟨by decide, by decide⟩
  · rcases digit_enum c hd with rfl | rfl | rfl | rfl | rfl | rfl | rfl | rfl | rfl | rfl <;>
      exact ⟨by decide, by decide⟩

/-- Every rendering of a representable value starts with a character that
    is neither whitespace nor a closing bracket. -/
theorem render_head (v : Value) (s : List Char) (h : jsonStringifyChars v = some s) :
    ∃ c t, s = c :: t ∧ isWsCh c = false ∧ c ≠ ']' := by
  cases v with
  | null =>
    have hs : s = 'n' :: ['u', 'l', 'l'] := by
      simpa [jsonStringifyChars] using h.symm
    exact ⟨_, _, hs, by decide, by decide⟩
  | undef => simp [jsonStringifyChars] at h
  | bool b =>
    cases b
    · have hs : s = 'f' :: ['a', 'l', 's', 'e'] := by
        simpa [jsonStringifyChars] using h.symm
      exact ⟨_, _, hs, by decide, by decide⟩
    · have hs : s = 't' :: ['r', 'u', 'e'] := by
        simpa [jsonStringifyChars] using h.symm
      exact ⟨_, _, hs, by decide, by decide⟩
  | num n =>
    cases n with
    | fin q =>
      obtain ⟨c, t, hct, hc⟩ := finToChars_head q
      obtain ⟨hws, hrb⟩ := numHead_facts c hc
      have hs : s = c :: t := by
        simp only [jsonStringifyChars] at h
        rw [hct] at h
        exact (Option.some.inj h).symm
      exact ⟨_, _, hs, hws, hrb⟩
    | nan =>
      have hs : s = 'n' :: ['u', 'l', 'l'] := by
        simpa [jsonStringifyChars] using h.symm
      exact ⟨_, _, hs, by decide, by decide⟩
    | inf =>
      have hs : s = 'n' :: ['u', 'l', 'l'] := by
        simpa [jsonStringifyChars] using h.symm
      exact ⟨_, _, hs, by decide, by decide⟩
    | ninf =>
      have hs : s = 'n' :: ['u', 'l', 'l'] := by
        simpa [jsonStringifyChars] using h.symm
      exact ⟨_, _, hs, by decide, by decide⟩
  | str st =>
    have hs : s = chDQ :: (jsonEscapeList st.data ++ [chDQ]) := by
      simp only [jsonStringifyChars, jsonStrRender] at h
      exact (Option.some.inj h).symm
    exact ⟨_, _, hs, by decide, by decide⟩
  | arr es =>
    have hs : s = '[' :: (commaJoin (jsonStringifyElems es) ++ [']']) := by
      simp only [jsonStringifyChars] at h
      exact (Option.some.inj h).symm
    exact ⟨_, _, hs, by decide, by decide⟩
  | obj fs =>
    have hs : s = chLB :: (commaJoin (jsonStringifyFields fs) ++ [chRB]) := by
      simp only [jsonStringifyChars] at h
      exact (Option.some.inj h).symm
    exact ⟨_, _, hs, by decide, by decide⟩

/-! #### Duplicate-free keys pass through the JS member fold unchanged -/

/-- Inserting a fresh key appends. -/
theorem objInsert_notMem (acc : List (String × Value)) (k : String) (v : Value)
    (h : ∀ kv ∈ acc, kv.1 ≠ k) : objInsert acc k v = acc ++ [(k, v)] := by
  have hna : (acc.any fun kv => kv.1 = k) = false := by
    rw [List.any_eq_false]
    intro kv hkv
    simp [h kv hkv]
  simp [objInsert, hna]

/-- Folding raw members with keys fresh for the accumulator appends. -/
theorem objFold_go (raw : List (String × Value)) : ∀ acc : List (String × Value),
    (∀ kv ∈ acc, kv.1 ∉ raw.map Prod.fst) → nodupKeysB (raw.map Prod.fst) = true →
    raw.foldl (fun a kv => objInsert a kv.1 kv.2) acc = acc ++ raw := by
  induction raw with
  | nil =>
    intro acc _ _
    simp
  | cons p rest ih =>
    intro acc hdisj hnd
    simp only [List.map_cons, nodupKeysB, Bool.and_eq_true, decide_eq_true_eq] at hnd
    simp only [List.foldl_cons]
    rw [objInsert_notMem acc p.1 p.2
      (fun kv hkv => by
        have hh := hdisj kv hkv
        simp only [List.map_cons, List.mem_cons, not_or] at hh
        exact hh.1)]
    rw [ih (acc ++ [p]) ?_ hnd.2]
    · simp
    · intro kv hkv
      rcases List.mem_append.mp hkv with hmem | hmem
      · have hh := hdisj kv hmem
        simp only [List.map_cons, List.mem_cons, not_or] at hh
        exact hh.2
      · have : kv = p := by simpa using hmem
        rw [this]
        exact hnd.1

/-- With duplicate-free keys the JS member fold is the identity. -/
theorem objFold_nodup (raw : List (String × Value))
    (h : nodupKeysB (raw.map Prod.fst) = true) : objFold raw = raw := by
  have := objFold_go raw [] (by simp) h
  simpa [objFold] using this

/-- Every representable value stringifies. -/
theorem jsonStringifyChars_some (v : Value) (h : jsonReprB v = true) :
    ∃ s, jsonStringifyChars v = some s := by
  cases v with
  | undef => exact absurd h (by decide)
  | num n => cases n <;> exact ⟨_, rfl⟩
  | null => exact ⟨_, rfl⟩
  | bool b => cases b <;> exact ⟨_, rfl⟩
  | str st => exact ⟨_, rfl⟩
  | arr es => exact ⟨_, rfl⟩
  | obj fs => exact ⟨_, rfl⟩

/-! #### Fuel bounds from rendered lengths -/

/-- One rendered element, then the rest. -/
theorem jsonStringifyElems_cons (v : Value) (vs : List Value) :
    jsonStringifyElems (v :: vs) =
      ((jsonStringifyChars v).getD ['n', 'u', 'l', 'l']) :: jsonStringifyElems vs := rfl

/-- One rendered member of a stringifiable field, then the rest. -/
theorem jsonStringifyFields_cons_some (k : String) (v : Value)
    (fs : List (String × Value)) (sv : List Char) (h : jsonStringifyChars v = some sv) :
    jsonStringifyFields ((k, v) :: fs) =
      (jsonStrRender k ++ ':' :: sv) :: jsonStringifyFields fs := by
  simp [jsonStringifyFields, h]

/-- Comma-joining at least two pieces. -/
theorem commaJoin_cons2 (x y : List Char) (ys : List (List Char)) :
    commaJoin (x :: y :: ys) = x ++ ',' :: commaJoin (y :: ys) := rfl

/-- Comma-joining one piece. -/
theorem commaJoin_one (x : List Char) : commaJoin [x] = x := rfl

mutual

/-- The fuel needed to parse a rendered value is within its length. -/
theorem needVal_le (v : Value) (s : List Char) (hr : jsonReprB v = true)
    (hs : jsonStringifyChars v = some s) : needVal v ≤ s.length + 1 := by
  cases v with
  | arr es =>
    have hse : s = '[' :: (commaJoin (jsonStringifyElems es) ++ [']']) := by
      simp only [jsonStringifyChars] at hs
      exact (Option.some.inj hs).symm
    have hr2 : jsonReprListB es = true := by simpa [jsonReprB] using hr
    have hel := needElems_le es hr2
    subst hse
    simp only [needVal, List.length_cons, List.length_append]
    omega
  | obj fs =>
    have hse : s = chLB :: (commaJoin (jsonStringifyFields fs) ++ [chRB]) := by
      simp only [jsonStringifyChars] at hs
      exact (Option.some.inj hs).symm
    have hr2 : jsonReprFieldsB fs = true := by
      simp only [jsonReprB, Bool.and_eq_true] at hr
      exact hr.2
    have hms := needMems_le fs hr2
    subst hse
    simp only [needVal, List.length_cons, List.length_append]
    omega
  | null => simp only [needVal]; omega
  | undef => simp only [needVal]; omega
  | bool b => simp only [needVal]; omega
  | num n => simp only [needVal]; omega
  | str st => simp only [needVal]; omega

/-- The fuel needed to parse rendered elements is within their joined
    length. -/
theorem needElems_le (es : List Value) (hr : jsonReprListB es = true) :
    needElems es ≤ (commaJoin (jsonStringifyElems es)).length + 2 := by
  cases es with
  | nil => simp only [needElems]; omega
  | cons v vs =>
    simp only [jsonReprListB, Bool.and_eq_true] at hr
    obtain ⟨rv, hrveq⟩ := jsonStringifyChars_some v hr.1
    have h1 := needVal_le v rv hr.1 hrveq
    have hgd : (jsonStringifyChars v).getD ['n', 'u', 'l', 'l'] = rv := by
      rw [hrveq]
      rfl
    cases vs with
    | nil =>
      rw [jsonStringifyElems_cons, hgd]
      show needElems [v] ≤ (commaJoin [rv]).length + 2
      rw [commaJoin_one]
      simp only [needElems, needVal]
      omega
    | cons v2 vs2 =>
      have h2 := needElems_le (v2 :: vs2) hr.2
      rw [jsonStringifyElems_cons, hgd]
      have hcons : ∃ e2 es2, jsonStringifyElems (v2 :: vs2) = e2 :: es2 :=
        ⟨_, _, jsonStringifyElems_cons v2 vs2⟩
      obtain ⟨e2, es2, hee⟩ := hcons
      rw [hee]
      rw [hee] at h2
      rw [commaJoin_cons2]
      simp only [needElems, List.length_append, List.length_cons] at *
      omega

/-- The fuel needed to parse rendered members is within their joined
    length. -/
theorem needMems_le (fs : List (String × Value)) (hr : jsonReprFieldsB fs = true) :
    needMems fs ≤ (commaJoin (jsonStringifyFields fs)).length + 2 := by
  cases fs with
  | nil => simp only [needMems]; omega
  | cons f fs2 =>
    obtain ⟨k, v⟩ := f
    simp only [jsonReprFieldsB, Bool.and_eq_true] at hr
    obtain ⟨sv, hsveq⟩ := jsonStringifyChars_some v hr.1
    have h1 := needVal_le v sv hr.1 hsveq
    rw [jsonStringifyFields_cons_some k v fs2 sv hsveq]
    cases fs2 with
    | nil =>
      have hfn : jsonStringifyFields ([] : List (String × Value)) = [] := rfl
      rw [hfn, commaJoin_one]
      simp only [needMems, needVal, List.length_append, List.length_cons]
      omega
    | cons f2 fs3 =>
      have h2 := needMems_le (f2 :: fs3) hr.2
      obtain ⟨k2, v2⟩ := f2
      by_cases hv2 : ∃ sv2, jsonStringifyChars v2 = some sv2
      · obtain ⟨sv2, hsv2⟩ := hv2
        have hcons : ∃ m2 ms2, jsonStringifyFields ((k2, v2) :: fs3) = m2 :: ms2 :=
          ⟨_, _, jsonStringifyFields_cons_some k2 v2 fs3 sv2 hsv2⟩
        obtain ⟨m2, ms2, hmm⟩ := hcons
        rw [hmm]
        rw [hmm] at h2
        rw [commaJoin_cons2]
        simp only [needMems, List.length_append, List.length_cons] at *
        omega
      · exfalso
        simp only [jsonReprFieldsB, Bool.and_eq_true] at hr
        exact hv2 (jsonStringifyChars_some v2 hr.2.1)

end

/-! #### The round-trip induction -/

/-- Rendered values, elements and members parse back exactly, given fuel
    at least the counted need and a delimiter-headed remainder. -/
theorem json_roundtrip_go : ∀ fuel : Nat,
    (∀ (v : Value) (s rest : List Char), jsonReprB v = true → needVal v ≤ fuel →
      jsonDelimB rest = true → jsonStringifyChars v = some s →
      jsonParseVal fuel (s ++ rest) = some (v, rest)) ∧
    (∀ (es : List Value) (rest : List Char), jsonReprListB es = true → es ≠ [] →
      needElems es ≤ fuel → jsonDelimB rest = true →
      jsonParseElems fuel (commaJoin (jsonStringifyElems es) ++ ']' :: rest) =
        some (es, rest)) ∧
    (∀ (fs : List (String × Value)) (rest : List Char), jsonReprFieldsB fs = true →
      fs ≠ [] → needMems fs ≤ fuel → jsonDelimB rest = true →
      jsonParseMems fuel (commaJoin (jsonStringifyFields fs) ++ chRB :: rest) =
        some (fs, rest)) := by
  intro fuel
  induction fuel with
  | zero =>
    refine ⟨fun v s rest _ hneed _ _ => ?_, fun es rest _ hne hneed _ => ?_,
      fun fs rest _ hne hneed _ => ?_⟩
    · exact absurd hneed (by have := needVal_pos v; omega)
    · cases es with
      | nil => exact absurd rfl hne
      | cons v vs =>
        simp only [needElems] at hneed
        omega
    · cases fs with
      | nil => exact absurd rfl hne
      | cons f fs2 =>
        obtain ⟨k, v⟩ := f
        simp only [needMems] at hneed
        omega
  | succ fuel ih =>
    obtain ⟨ihv, ihe, ihm⟩ := ih
    refine ⟨?_, ?_, ?_⟩
    · -- values
      intro v s rest hr hneed hdelim hs
      cases v with
      | null =>
        have hse : s = ['n', 'u', 'l', 'l'] := by
          simpa [jsonStringifyChars] using hs.symm
        subst hse
        simp +decide [jsonParseVal, jsonSkipWs]
      | undef => exact absurd hr (by decide)
      | bool b =>
        cases b with
        | true =>
          have hse : s = ['t', 'r', 'u', 'e'] := by
            simpa [jsonStringifyChars] using hs.symm
          subst hse
          simp +decide [jsonParseVal, jsonSkipWs]
        | false =>
          have hse : s = ['f', 'a', 'l', 's', 'e'] := by
            simpa [jsonStringifyChars] using hs.symm
          subst hse
          simp +decide [jsonParseVal, jsonSkipWs]
      | num n =>
        cases n with
        | nan => exact absurd hr (by decide)
        | inf => exact absurd hr (by decide)
        | ninf => exact absurd hr (by decide)
        | fin q =>
          have hnorm : decIsNorm q = true := by simpa [jsonReprB] using hr
          have hse : s = finToChars q := by
            simpa [jsonStringifyChars] using hs.symm
          subst hse
          have hq := jsonParseNum_finToChars q hnorm rest hdelim
          obtain ⟨c, t, hct, hc⟩ := finToChars_head q
          rw [hct] at hq ⊢
          simp only [List.cons_append] at hq ⊢
          exact jsonParseVal_num_some fuel c (t ++ rest) hc q rest hq
      | str st =>
        have hse : s = chDQ :: (jsonEscapeList st.data ++ [chDQ]) := by
          simpa [jsonStringifyChars, jsonStrRender] using hs.symm
        subst hse
        simp only [List.cons_append, List.append_assoc, List.singleton_append]
        have hstr := jsonParseStrAux_escape st.data
          ((jsonEscapeList st.data ++ chDQ :: rest).length + 1) [] rest
          (by simp only [List.length_append]; omega)
        simp only [List.reverse_nil, List.nil_append, List.length_append,
          List.length_cons] at hstr
        simp +decide [jsonParseVal, jsonSkipWs, hstr]
      | arr es =>
        cases es with
        | nil =>
          have hse : s = ['[', ']'] := by
            simpa [jsonStringifyChars, jsonStringifyElems, commaJoin] using hs.symm
          subst hse
          simp +decide [jsonParseVal, jsonSkipWs]
        | cons e1 es2 =>
          have hr2 : jsonReprListB (e1 :: es2) = true := by simpa [jsonReprB] using hr
          have hneed2 : needElems (e1 :: es2) ≤ fuel := by
            simp only [needVal] at hneed
            omega
          have hse : s = '[' :: (commaJoin (jsonStringifyElems (e1 :: es2)) ++ [']']) := by
            simpa [jsonStringifyChars] using hs.symm
          subst hse
          have hre1 : jsonReprB e1 = true := by
            simp only [jsonReprListB, Bool.and_eq_true] at hr2
            exact hr2.1
          obtain ⟨re1, hre⟩ := jsonStringifyChars_some e1 hre1
          obtain ⟨c0, t0, hc0t, hws0, hrb0⟩ := render_head e1 re1 hre
          have hgd : (jsonStringifyChars e1).getD ['n', 'u', 'l', 'l'] = c0 :: t0 := by
            rw [hre, hc0t]
            rfl
          obtain ⟨ct, hcj⟩ : ∃ ct,
              commaJoin (jsonStringifyElems (e1 :: es2)) = c0 :: ct := by
            rw [jsonStringifyElems_cons, hgd]
            cases es2 with
            | nil =>
              have hnil : jsonStringifyElems [] = [] := rfl
              exact ⟨t0, by rw [hnil, commaJoin_one]⟩
            | cons e2 es3 =>
              obtain ⟨x2, xs2, hxx⟩ : ∃ x2 xs2,
                  jsonStringifyElems (e2 :: es3) = x2 :: xs2 :=
                ⟨_, _, jsonStringifyElems_cons e2 es3⟩
              rw [hxx, commaJoin_cons2]
              exact ⟨t0 ++ ',' :: commaJoin (x2 :: xs2), by simp⟩
          have hel := ihe (e1 :: es2) rest hr2 (by simp) hneed2 hdelim
          rw [hcj] at hel ⊢
          simp only [List.cons_append] at hel ⊢
          have hwsb : isWsCh '[' = false := by decide
          simp +decide [jsonParseVal, jsonSkipWs_cons, hws0, hwsb, hrb0, hel]
      | obj fs =>
        cases fs with
        | nil =>
          have hse : s = [chLB, chRB] := by
            simpa [jsonStringifyChars, jsonStringifyFields, commaJoin] using hs.symm
          subst hse
          simp +decide [jsonParseVal, jsonSkipWs, chLB, chRB]
        | cons f1 fs2 =>
          obtain ⟨k1, v1⟩ := f1
          have hrparts : nodupKeysB (((k1, v1) :: fs2).map Prod.fst) = true
              ∧ jsonReprFieldsB ((k1, v1) :: fs2) = true := by
            simpa [jsonReprB, Bool.and_eq_true] using hr
          have hneed2 : needMems ((k1, v1) :: fs2) ≤ fuel := by
            simp only [needVal] at hneed
            omega
          have hse : s = chLB ::
              (commaJoin (jsonStringifyFields ((k1, v1) :: fs2)) ++ [chRB]) := by
            simpa [jsonStringifyChars] using hs.symm
          subst hse
          have hrv1 : jsonReprB v1 = true := by
            have := hrparts.2
            simp only [jsonReprFieldsB, Bool.and_eq_true] at this
            exact this.1
          obtain ⟨sv1, hsv1⟩ := jsonStringifyChars_some v1 hrv1
          obtain ⟨ct, hcj⟩ : ∃ ct,
              commaJoin (jsonStringifyFields ((k1, v1) :: fs2)) = chDQ :: ct := by
            rw [jsonStringifyFields_cons_some k1 v1 fs2 sv1 hsv1]
            cases fs2 with
            | nil =>
              have hfnil : jsonStringifyFields ([] : List (String × Value)) = [] := rfl
              rw [hfnil, commaJoin_one]
              exact ⟨(jsonEscapeList k1.data ++ [chDQ]) ++ ':' :: sv1,
                by rw [jsonStrRender]; simp⟩
            | cons f2 fs3 =>
              obtain ⟨k2, v2⟩ := f2
              have hrv2 : jsonReprB v2 = true := by
                have := hrparts.2
                simp only [jsonReprFieldsB, Bool.and_eq_true] at this
                exact this.2.1
              obtain ⟨sv2, hsv2⟩ := jsonStringifyChars_some v2 hrv2
              obtain ⟨x2, xs2, hxx⟩ : ∃ x2 xs2,
                  jsonStringifyFields ((k2, v2) :: fs3) = x2 :: xs2 :=
                ⟨_, _, jsonStringifyFields_cons_some k2 v2 fs3 sv2 hsv2⟩
              rw [hxx, commaJoin_cons2]
              exact ⟨(jsonEscapeList k1.data ++ [chDQ]) ++ ':' :: sv1 ++
                  ',' :: commaJoin (x2 :: xs2),
                by rw [jsonStrRender]; simp⟩
          have hmem := ihm ((k1, v1) :: fs2) rest hrparts.2 (by simp) hneed2 hdelim
          rw [hcj] at hmem ⊢
          simp only [List.cons_append] at hmem ⊢
          have hfold : objFold ((k1, v1) :: fs2) = (k1, v1) :: fs2 :=
            objFold_nodup _ hrparts.1
          simp +decide [jsonParseVal, jsonSkipWs_cons, hmem, hfold]
    · -- elements
      intro es rest hr hne hneed hdelim
      cases es with
      | nil => exact absurd rfl hne
      | cons v vs =>
        simp only [jsonReprListB, Bool.and_eq_true] at hr
        obtain ⟨rv, hrveq⟩ := jsonStringifyChars_some v hr.1
        have hgd : (jsonStringifyChars v).getD ['n', 'u', 'l', 'l'] = rv := by
          rw [hrveq]
          rfl
        rw [jsonStringifyElems_cons, hgd]
        cases vs with
        | nil =>
          have hneedv : needVal v ≤ fuel := by
            simp only [needElems, needElems] at hneed
            omega
          have hv := ihv v rv (']' :: rest) hr.1 hneedv rfl hrveq
          have hnil : jsonStringifyElems [] = [] := rfl
          rw [hnil, commaJoin_one]
          simp only [List.append_assoc, List.cons_append, List.nil_append] at hv ⊢
          simp +decide [jsonParseElems, jsonSkipWs, hv]
        | cons v2 vs2 =>
          have hneedv : needVal v ≤ fuel := by
            simp only [needElems] at hneed
            omega
          have hneedvs : needElems (v2 :: vs2) ≤ fuel := by
            simp only [needElems] at hneed ⊢
            omega
          obtain ⟨x2, xs2, hxx⟩ : ∃ x2 xs2,
              jsonStringifyElems (v2 :: vs2) = x2 :: xs2 :=
            ⟨_, _, jsonStringifyElems_cons v2 vs2⟩
          rw [hxx, commaJoin_cons2, ← hxx]
          have hv := ihv v rv
            (',' :: (commaJoin (jsonStringifyElems (v2 :: vs2)) ++ ']' :: rest))
            hr.1 hneedv rfl hrveq
          have he2 := ihe (v2 :: vs2) rest hr.2 (by simp) hneedvs hdelim
          simp only [List.append_assoc, List.cons_append, List.nil_append] at hv ⊢
          simp +decide [jsonParseElems, jsonSkipWs, hv, he2]
    · -- members
      intro fs rest hr hne hneed hdelim
      cases fs with
      | nil => exact absurd rfl hne
      | cons f1 fs2 =>
        obtain ⟨k1, v1⟩ := f1
        simp only [jsonReprFieldsB, Bool.and_eq_true] at hr
        obtain ⟨sv1, hsv1⟩ := jsonStringifyChars_some v1 hr.1
        rw [jsonStringifyFields_cons_some k1 v1 fs2 sv1 hsv1]
        cases fs2 with
        | nil =>
          have hneedv : needVal v1 ≤ fuel := by
            simp only [needMems] at hneed
            omega
          have hfnil : jsonStringifyFields ([] : List (String × Value)) = [] := rfl
          rw [hfnil, commaJoin_one, jsonStrRender]
          simp only [List.append_assoc, List.cons_append, List.nil_append,
            List.singleton_append]
          have hstr := jsonParseStrAux_escape k1.data
            ((jsonEscapeList k1.data ++ chDQ :: ':' :: (sv1 ++ chRB :: rest)).length + 1)
            [] (':' :: (sv1 ++ chRB :: rest))
            (by simp only [List.length_append]; omega)
          simp only [List.reverse_nil, List.nil_append, List.length_append,
            List.length_cons] at hstr
          have hv := ihv v1 sv1 (chRB :: rest) hr.1 hneedv rfl hsv1
          have hwsa : isWsCh chDQ = false := by decide
          have hwsc : isWsCh ':' = false := by decide
          have hwsd : isWsCh chRB = false := by decide
          simp +decide [jsonParseMems, jsonSkipWs_cons, hwsa, hwsc, hwsd, hstr, hv]
        | cons f2 fs3 =>
          obtain ⟨k2, v2⟩ := f2
          have hneedv : needVal v1 ≤ fuel := by
            simp only [needMems] at hneed
            omega
          have hneedfs : needMems ((k2, v2) :: fs3) ≤ fuel := by
            simp only [needMems] at hneed ⊢
            omega
          obtain ⟨sv2, hsv2⟩ := jsonStringifyChars_some v2 (by
            simp only [jsonReprFieldsB, Bool.and_eq_true] at hr
            exact hr.2.1)
          obtain ⟨x2, xs2, hxx⟩ : ∃ x2 xs2,
              jsonStringifyFields ((k2, v2) :: fs3) = x2 :: xs2 :=
            ⟨_, _, jsonStringifyFields_cons_some k2 v2 fs3 sv2 hsv2⟩
          rw [hxx, commaJoin_cons2, ← hxx, jsonStrRender]
          simp only [List.append_assoc, List.cons_append, List.nil_append,
            List.singleton_append]
          have hstr := jsonParseStrAux_escape k1.data
            ((jsonEscapeList k1.data ++ chDQ :: ':' ::
              (sv1 ++ ',' :: (commaJoin (jsonStringifyFields ((k2, v2) :: fs3)) ++
                chRB :: rest))).length + 1)
            [] (':' :: (sv1 ++ ',' :: (commaJoin (jsonStringifyFields ((k2, v2) :: fs3)) ++
              chRB :: rest)))
            (by simp only [List.length_append]; omega)
          simp only [List.reverse_nil, List.nil_append, List.length_append,
            List.length_cons] at hstr
          have hv := ihv v1 sv1
            (',' :: (commaJoin (jsonStringifyFields ((k2, v2) :: fs3)) ++ chRB :: rest))
            hr.1 hneedv rfl hsv1
          have hm2 := ihm ((k2, v2) :: fs3) rest hr.2 (by simp) hneedfs hdelim
          simp only [List.append_assoc, List.cons_append, List.nil_append] at hv hm2 ⊢
          have hwsa : isWsCh chDQ = false := by decide
          have hwsc : isWsCh ':' = false := by decide
          have hwse : isWsCh ',' = false := by decide
          simp +decide [jsonParseMems, jsonSkipWs_cons, hwsa, hwsc, hwse, hstr, hv, hm2]

/-- Claim C5: the JSON round-trip holds — for every JSON-representable
    value `v` (no undefined, no NaN or infinities, duplicate-free object
    keys, numbers in the canonical decimal form every evaluator-built
    number has), `toJSON`'s serialization (`JSON.stringify`) yields a
    string from which `fromJSON`'s parser (`JSON.parse`) recovers `v`
    exactly, structurally equal including object field order. -/
theorem c5_json_roundtrip (v : Value) (h : jsonReprB v = true) :
    ∃ s : String, jsonStringify v = some s ∧ jsonParse s = some v := by
  obtain ⟨rv, hrv⟩ := jsonStringifyChars_some v h
  refine ⟨String.mk rv, ?_, ?_⟩
  · rw [jsonStringify, hrv]
    rfl
  · have hneed := needVal_le v rv h hrv
    have hp := (json_roundtrip_go (rv.length + 1)).1 v rv [] h (by omega) rfl hrv
    rw [List.append_nil] at hp
    have hd : (String.mk rv).data = rv := rfl
    simp [jsonParse, hd, hp, jsonSkipWs]

/-- Claim C5 witness: a concrete representable object (nested array,
    decimal and negative numbers, string, booleans, null) stringifies and
    parses back to itself. -/
theorem c5_json_roundtrip_witness :
    jsonReprB (Value.obj [("ref", .str "refs/heads/main"),
      ("nums", .arr [.num (.fin ⟨35, 1⟩), .num (.fin ⟨-2, 0⟩), .null, .bool true]),
      ("ok", .bool false)]) = true
    ∧ ∃ s : String,
        jsonStringify (Value.obj [("ref", .str "refs/heads/main"),
          ("nums", .arr [.num (.fin ⟨35, 1⟩), .num (.fin ⟨-2, 0⟩), .null, .bool true]),
          ("ok", .bool false)]) = some s
        ∧ jsonParse s = some (Value.obj [("ref", .str "refs/heads/main"),
            ("nums", .arr [.num (.fin ⟨35, 1⟩), .num (.fin ⟨-2, 0⟩), .null, .bool true]),
            ("ok", .bool false)]) :=
  ⟨rfl, c5_json_roundtrip _ rfl⟩

end GHAEval
